import Mathlib

/-!
azuki: progress tracker, size formatting, filename sanitising and transfer loop.

A shallow embedding of `src/package/azuki.go`.

* Go `int64` / `int` (taken as 64 bit) values are integers, wrapped with `wrap64`
  where the source can overflow.
* Go `float64` values are modelled exactly: a finite value is the rational
  number it denotes, every arithmetic operation rounds its exact result to the
  nearest binary64 value (ties to even), with overflow to the infinities and
  the subnormal range included.  The sign of a zero is not tracked.
* `time.Now()` is an explicit input: the monotonic clock reading in nanoseconds.
* Go strings are modelled as sequences of Unicode characters (valid UTF-8).
* The terminal output of `Update` is the record `Frame` (colour codes, which
  come from an external library, are left out).  The conversion `int(x)` of a
  float that is NaN, infinite or out of range has no value fixed by the
  language: `F64.toInt64` gives `none` there and `F64.toInt64_amd64` gives the
  integer the amd64 build produces.
-/

namespace Azuki

/-! ## Machine integers -/

/-- Two's-complement wrap of an integer into the `int64` range. -/
def wrap64 (z : ℤ) : ℤ := (z + 2 ^ 63) % 2 ^ 64 - 2 ^ 63

/-! ## binary64 floating point -/

/-- Nearest integer to a rational, ties to the even neighbour. -/
def rne (y : ℚ) : ℤ :=
  let f := ⌊y⌋
  let r := y - f
  if r < 1 / 2 then f
  else if 1 / 2 < r then f + 1
  else if f % 2 = 0 then f else f + 1

/-- A `float64` value: a finite rational, an infinity or NaN. -/
inductive F64 where
  | fin (q : ℚ)
  | pinf
  | ninf
  | nan
  deriving DecidableEq, Repr

namespace F64

/-- Binary exponent used to round `x`: `⌊log₂ |x|⌋`, not below the smallest
normal exponent `-1022` (smaller values are rounded on the subnormal grid). -/
def expOf (x : ℚ) : ℤ := max (Int.log 2 |x|) (-1022)

/-- Spacing of the binary64 grid around `x`: 53 significant bits. -/
def ulp (x : ℚ) : ℚ := (2 : ℚ) ^ (expOf x - 52)

/-- Nearest point of the binary64 grid around `x`, ties to the even
significand, before the overflow check. -/
def roundQ (x : ℚ) : ℚ := (rne (x / ulp x) : ℚ) * ulp x

/-- Rounding of an exact result to binary64, round-to-nearest ties-to-even,
with overflow to an infinity from `2 ^ 1024` on. -/
def round (x : ℚ) : F64 :=
  if (2 : ℚ) ^ (1024 : ℕ) ≤ roundQ x then pinf
  else if roundQ x ≤ -(2 : ℚ) ^ (1024 : ℕ) then ninf
  else fin (roundQ x)

/-- Conversion `float64(n)` of an integer. -/
def ofInt (n : ℤ) : F64 := round n

/-- Floating-point multiplication `a * b`. -/
def mul : F64 → F64 → F64
  | nan, _ => nan
  | _, nan => nan
  | fin a, fin b => round (a * b)
  | fin a, pinf => if a = 0 then nan else if 0 < a then pinf else ninf
  | fin a, ninf => if a = 0 then nan else if 0 < a then ninf else pinf
  | pinf, fin b => if b = 0 then nan else if 0 < b then pinf else ninf
  | ninf, fin b => if b = 0 then nan else if 0 < b then ninf else pinf
  | pinf, pinf => pinf
  | pinf, ninf => ninf
  | ninf, pinf => ninf
  | ninf, ninf => pinf

/-- Floating-point division `a / b`.  A finite non-zero value divided by zero
is an infinity, `0 / 0` is NaN; no case panics. -/
def div : F64 → F64 → F64
  | nan, _ => nan
  | _, nan => nan
  | fin a, fin b =>
      if b = 0 then (if a = 0 then nan else if 0 < a then pinf else ninf)
      else round (a / b)
  | fin _, pinf => fin 0
  | fin _, ninf => fin 0
  | pinf, fin b => if 0 ≤ b then pinf else ninf
  | ninf, fin b => if 0 ≤ b then ninf else pinf
  | pinf, pinf => nan
  | pinf, ninf => nan
  | ninf, pinf => nan
  | ninf, ninf => nan

/-- Floating-point addition `a + b`. -/
def add : F64 → F64 → F64
  | nan, _ => nan
  | _, nan => nan
  | fin a, fin b => round (a + b)
  | fin _, pinf => pinf
  | fin _, ninf => ninf
  | pinf, fin _ => pinf
  | ninf, fin _ => ninf
  | pinf, pinf => pinf
  | ninf, ninf => ninf
  | pinf, ninf => nan
  | ninf, pinf => nan

/-- Comparison `a >= b`; false as soon as one side is NaN. -/
def ge : F64 → F64 → Bool
  | nan, _ => false
  | _, nan => false
  | fin a, fin b => decide (b ≤ a)
  | pinf, _ => true
  | _, ninf => true
  | fin _, pinf => false
  | ninf, fin _ => false
  | ninf, pinf => false

/-- Comparison `a > b`; false as soon as one side is NaN. -/
def gt : F64 → F64 → Bool
  | nan, _ => false
  | _, nan => false
  | fin a, fin b => decide (b < a)
  | pinf, pinf => false
  | pinf, _ => true
  | ninf, _ => false
  | fin _, ninf => true
  | fin _, pinf => false

/-- Conversion `int(x)` to a 64-bit integer: truncation toward zero.  When the
truncated value does not fit (or `x` is an infinity or NaN) the Go language
leaves the result implementation-dependent: `none`. -/
def toInt64 : F64 → Option ℤ
  | fin q =>
      let t : ℤ := if 0 ≤ q then ⌊q⌋ else ⌈q⌉
      if -(2 : ℤ) ^ 63 ≤ t ∧ t < 2 ^ 63 then some t else none
  | _ => none

/-- Conversion `int(x)` as compiled for amd64: where the language leaves the
result open (`toInt64 x = none`) the instruction gives `-2 ^ 63`. -/
def toInt64_amd64 (x : F64) : ℤ := (toInt64 x).getD (-(2 : ℤ) ^ 63)

end F64

/-! ## Text formatting (`fmt.Sprintf` verbs used by the program) -/

/-- Left-pads a decimal numeral with zeros up to `w` characters. -/
def padZeros (w : ℕ) (s : String) : String :=
  String.mk (List.replicate (w - s.length) '0') ++ s

/-- A rational printed with `prec` decimals, rounded to the nearest such
decimal, ties to even. -/
def fixedText (prec : ℕ) (q : ℚ) : String :=
  let c : ℕ := (rne (|q| * (10 : ℚ) ^ prec)).toNat
  let sign : String := if q < 0 then "-" else ""
  let whole : String := toString (c / 10 ^ prec)
  if prec = 0 then sign ++ whole
  else sign ++ whole ++ "." ++ padZeros prec (toString (c % 10 ^ prec))

/-- The verb `%.<prec>f`: the exact value of the float rounded to `prec`
decimals, ties to even; `NaN`, `+Inf` and `-Inf` for the special values. -/
def fmtFixed (prec : ℕ) : F64 → String
  | F64.nan => "NaN"
  | F64.pinf => "+Inf"
  | F64.ninf => "-Inf"
  | F64.fin q => fixedText prec q

/-- The verb `%d` on an integer. -/
def fmtInt (z : ℤ) : String := toString z

/-! ## `formatSize` -/

/-- Constant `KB` of `formatSize`. -/
def KB : ℤ := 1024
/-- Constant `MB` of `formatSize`. -/
def MB : ℤ := 1024 * KB
/-- Constant `GB` of `formatSize`. -/
def GB : ℤ := 1024 * MB

/-- Source `formatSize` (lines 105-122). -/
def formatSize (bytes : ℤ) : String :=
  if bytes ≥ GB then fmtFixed 2 (F64.div (F64.ofInt bytes) (F64.ofInt GB)) ++ "GB"
  else if bytes ≥ MB then fmtFixed 2 (F64.div (F64.ofInt bytes) (F64.ofInt MB)) ++ "MB"
  else if bytes ≥ KB then fmtFixed 2 (F64.div (F64.ofInt bytes) (F64.ofInt KB)) ++ "KB"
  else fmtInt bytes ++ "B"

/-- The size text as the specification words it: the unit is the largest of
B, KB, MB, GB whose threshold `1024 ^ k` is at most `b`, and the number is the
exact quotient `b / 1024 ^ k` with two decimals (the integer itself for B). -/
def formatSize_spec (b : ℤ) : String :=
  if b < 1024 then fmtInt b ++ "B"
  else if b < 1024 ^ 2 then fixedText 2 ((b : ℚ) / 1024) ++ "KB"
  else if b < 1024 ^ 3 then fixedText 2 ((b : ℚ) / 1024 ^ 2) ++ "MB"
  else fixedText 2 ((b : ℚ) / 1024 ^ 3) ++ "GB"

/-! ## The progress bar -/

/-- Source `ProgressBar` (lines 30-36); `lastUpdate` is a monotonic clock
reading in nanoseconds. -/
structure ProgressBar where
  total : ℤ
  current : ℤ
  width : ℤ
  lastUpdate : ℤ
  speed : F64
  deriving DecidableEq, Repr

/-- Source `NewProgressBar` (lines 38-44); `now` is the value of `time.Now()`. -/
def NewProgressBar (total : ℤ) (now : ℤ) : ProgressBar :=
  { total := total, current := 0, width := 50, lastUpdate := now, speed := F64.fin 0 }

/-- The `time.Time.Sub` of two monotonic readings: the difference, saturated
to the `int64` range of `time.Duration`. -/
def timeSub (t u : ℤ) : ℤ :=
  let d := wrap64 (t - u)
  if d < 0 ∧ t > u then 2 ^ 63 - 1
  else if d > 0 ∧ t < u then -(2 : ℤ) ^ 63
  else d

/-- The `time.Duration.Seconds` of a duration in nanoseconds:
`float64(d / Second) + float64(d % Second) / 1e9`. -/
def seconds (d : ℤ) : F64 :=
  F64.add (F64.ofInt (d.tdiv 1000000000))
    (F64.div (F64.ofInt (d.tmod 1000000000)) (F64.fin 1000000000))

/-- Number of iterations of `for i := 0; i < completed; i++` (filled cells). -/
def filledCells (completed : ℤ) : ℕ := completed.toNat

/-- Number of iterations of `for i := completed; i < pb.width; i++` (empty cells). -/
def emptyCells (width completed : ℤ) : ℕ := (width - completed).toNat

/-- The speed text printed by `Update` (lines 88-94). -/
def speedText (speed : F64) : String :=
  if F64.gt speed (F64.fin (1024 * 1024)) then
    "(" ++ fmtFixed 2 (F64.div (F64.div speed (F64.fin 1024)) (F64.fin 1024)) ++ " MB/s)"
  else if F64.gt speed (F64.fin 1024) then
    "(" ++ fmtFixed 2 (F64.div speed (F64.fin 1024)) ++ " KB/s)"
  else "(" ++ fmtFixed 0 speed ++ " B/s)"

/-- What one call of `Update` computes and prints: the two local variables
`percentage` and `completed`, the number of filled and of empty cells drawn,
and the three texts printed after the bar.  `completed = none` (and then
`filled = empty = none`) means that the language does not fix the integer the
two loops run with; the texts are printed only once both loops have ended,
which on amd64 (`completed = -2 ^ 63`) is after `2 ^ 63 + width` empty cells.
The sign of a zero percentage is not tracked (`-0.0` is printed as `0.0`). -/
structure Frame where
  percentage : F64
  completed : Option ℤ
  filled : Option ℕ
  empty : Option ℕ
  percentText : String
  speedText : String
  sizeText : String
  deriving DecidableEq, Repr

/-- Source `ProgressBar.Update` (lines 46-103): the new tracker state and the
frame drawn (see `Frame` for the case where `int(...)` of line 58 is not
fixed by the language). -/
def Update (pb : ProgressBar) (n : ℤ) (now : ℤ) : ProgressBar × Frame :=
  let current := wrap64 (pb.current + n)
  let elapsed := seconds (timeSub now pb.lastUpdate)
  let sample := F64.ge elapsed (F64.fin (1 / 2))
  let speed := if sample then F64.div (F64.ofInt n) elapsed else pb.speed
  let lastUpdate := if sample then now else pb.lastUpdate
  let percentage :=
    F64.div (F64.mul (F64.ofInt current) (F64.fin 100)) (F64.ofInt pb.total)
  let completed :=
    F64.toInt64 (F64.div (F64.mul (F64.ofInt pb.width) (F64.ofInt current)) (F64.ofInt pb.total))
  ({ total := pb.total, current := current, width := pb.width,
     lastUpdate := lastUpdate, speed := speed },
   { percentage := percentage
     completed := completed
     filled := completed.map filledCells
     empty := completed.map (emptyCells pb.width)
     percentText := " " ++ fmtFixed 1 percentage ++ "% "
     speedText := speedText speed
     sizeText := " [" ++ formatSize current ++ "/" ++ formatSize pb.total ++ "]" })

/-- The tracker state after a sequence of `Update (n, now)` calls. -/
def runUpdates (pb : ProgressBar) : List (ℤ × ℤ) → ProgressBar
  | [] => pb
  | c :: cs => runUpdates (Update pb c.1 c.2).1 cs

/-! ## `sanitizeFilename` -/

/-- The `strings.ReplaceAll(s, old, new)` for a one-character `old`. -/
def replaceAll (s : List Char) (old : Char) (new : List Char) : List Char :=
  s.flatMap (fun c => if c = old then new else [c])

/-- The `unicode.IsSpace` predicate. -/
def isSpace (c : Char) : Bool :=
  let n := c.toNat
  n = 0x09 || n = 0x0A || n = 0x0B || n = 0x0C || n = 0x0D || n = 0x20 ||
  n = 0x85 || n = 0xA0 || n = 0x1680 || (0x2000 ≤ n && n ≤ 0x200A) ||
  n = 0x2028 || n = 0x2029 || n = 0x202F || n = 0x205F || n = 0x3000

/-- The `strings.TrimSpace`: leading and trailing white space removed. -/
def trimSpace (s : List Char) : List Char :=
  ((s.dropWhile isSpace).reverse.dropWhile isSpace).reverse

/-- The list `invalidChars` of `sanitizeFilename`. -/
def invalidChars : List Char := ['<', '>', ':', '"', '/', '\\', '|', '?', '*']

/-- Source `sanitizeFilename` (lines 276-284). -/
def sanitizeFilename (filename : String) : String :=
  let stripped := invalidChars.foldl (fun acc char => replaceAll acc char []) filename.data
  String.mk (replaceAll (trimSpace stripped) ' ' ['_'])

/-- The sanitised name as the specification words it: the characters
`< > : " / \ | ? *` stripped, the result trimmed, then every remaining space
replaced by an underscore. -/
def sanitize_spec (s : List Char) : List Char :=
  (trimSpace (s.filter (fun c => !(invalidChars.contains c)))).map
    (fun c => if c = ' ' then '_' else c)

/-! ## `handleYouTube`: extension of the file name -/

/-- The `strings.Split(s, sep)` for a one-character separator. -/
def split (sep : Char) : List Char → List (List Char)
  | [] => [[]]
  | c :: cs =>
    match split sep cs with
    | [] => [[]]
    | w :: ws => if c = sep then [] :: w :: ws else (c :: w) :: ws

/-- The `strings.Index(s, sep)` for a one-character `sep`; `none` is `-1`. -/
def index (sep : Char) : List Char → Option ℕ
  | [] => none
  | c :: cs => if c = sep then some 0 else (index sep cs).map (· + 1)

/-- Lines 208-211 of `handleYouTube`: the extension taken from the MIME type.
`none` is the run-time panic of the index expression `[1]`. -/
def handleYouTube_ext (mimeType : String) : Option String :=
  match (split '/' mimeType.data)[1]? with
  | none => none
  | some ext =>
    match index ';' ext with
    | some i => some (String.mk (ext.take i))
    | none => some (String.mk ext)

/-- The part of `s` after the first occurrence of `sep` (empty when there is none). -/
def afterFirst (sep : Char) (s : List Char) : List Char :=
  (s.dropWhile (fun c => c != sep)).drop 1

/-- The extension as the specification words it: the substring after the
first `/`, truncated just before the first `;` if one occurs. -/
def ext_spec (mimeType : String) : String :=
  String.mk ((afterFirst '/' mimeType.data).takeWhile (fun c => c != ';'))

/-! ## `handleYouTube`: the transfer loop -/

/-- The error value returned by a `Read`. -/
inductive ReadErr where
  | eof
  | other
  deriving DecidableEq, Repr

/-- One iteration's environment: what `resp.Read(buffer)` returns (the `n`
bytes put in the buffer and the error), whether `file.Write` succeeds, and
the clock reading seen by `Update`. -/
structure Step where
  data : List ℕ
  err : Option ReadErr
  writeOk : Bool
  now : ℤ
  deriving DecidableEq, Repr

/-- How the transfer loop ends; `blocked` when the given reads are used up
before the stream has reported its end. -/
inductive Outcome where
  | completed
  | readError
  | writeError
  | blocked
  deriving DecidableEq, Repr

/-- Lines 233-249 of `handleYouTube`: the loop, from a tracker and the bytes
already in the file, to the outcome, the final tracker and the file's bytes. -/
def handleYouTube_loop (pb : ProgressBar) (file : List ℕ) :
    List Step → Outcome × ProgressBar × List ℕ
  | [] => (Outcome.blocked, pb, file)
  | s :: rest =>
    if s.err = some ReadErr.eof then (Outcome.completed, pb, file)
    else if s.err ≠ none then (Outcome.readError, pb, file)
    else if s.writeOk = false then (Outcome.writeError, pb, file)
    else handleYouTube_loop (Update pb (s.data.length : ℤ) s.now).1 (file ++ s.data) rest


/-! ## Rounding to the nearest integer -/

theorem rne_intCast (n : ℤ) : rne (n : ℚ) = n := by
  simp [rne]

theorem rne_abs_sub_le (y : ℚ) : |((rne y : ℤ) : ℚ) - y| ≤ 1 / 2 := by
  have h1 := Int.floor_le y
  have h2 := Int.lt_floor_add_one y
  unfold rne
  simp only
  split_ifs with ha hb hc
  · rw [abs_le]; constructor <;> linarith
  · rw [abs_le]; push_cast; constructor <;> linarith
  · rw [abs_le]; constructor <;> linarith
  · rw [abs_le]; push_cast; constructor <;> linarith

theorem rne_eq_of_abs_lt (y : ℚ) (m : ℤ) (h : |y - m| < 1 / 2) : rne y = m := by
  have hy := rne_abs_sub_le y
  rw [abs_lt] at h
  rw [abs_le] at hy
  have h3 : ((rne y : ℤ) : ℚ) - m < 1 := by linarith
  have h4 : (-1 : ℚ) < ((rne y : ℤ) : ℚ) - m := by linarith
  have h5 : rne y - m < 1 := by exact_mod_cast h3
  have h6 : -1 < rne y - m := by exact_mod_cast h4
  omega

theorem le_rne (y : ℚ) (n : ℤ) (h : (n : ℚ) ≤ y) : n ≤ rne y := by
  have hf : n ≤ ⌊y⌋ := Int.le_floor.mpr h
  unfold rne
  simp only
  split_ifs <;> omega

theorem rne_le (y : ℚ) (n : ℤ) (h : y ≤ (n : ℚ)) : rne y ≤ n := by
  rcases eq_or_lt_of_le h with h0 | h0
  · rw [h0, rne_intCast]
  · have hf : ⌊y⌋ < n := Int.floor_lt.mpr h0
    unfold rne
    simp only
    split_ifs <;> omega

theorem rne_neg (y : ℚ) : rne (-y) = -rne y := by
  by_cases hy : (⌊y⌋ : ℚ) = y
  · rw [← hy, ← Int.cast_neg, rne_intCast, rne_intCast]
  · have h1 := Int.floor_le y
    have h2 := Int.lt_floor_add_one y
    have h1' : (⌊y⌋ : ℚ) < y := lt_of_le_of_ne h1 hy
    have hf : ⌊-y⌋ = -⌊y⌋ - 1 := by
      rw [Int.floor_eq_iff]
      push_cast
      constructor <;> linarith
    unfold rne
    simp only [hf]
    push_cast
    split_ifs <;> first | omega | (exfalso; linarith)

namespace F64

theorem two_zpow_pos (e : ℤ) : (0 : ℚ) < (2 : ℚ) ^ e := zpow_pos (by norm_num) e

theorem ulp_pos (x : ℚ) : 0 < ulp x := two_zpow_pos _

theorem roundQ_zero : roundQ 0 = 0 := by
  simp [roundQ, rne]

theorem roundQ_neg (x : ℚ) : roundQ (-x) = -roundQ x := by
  have hu : ulp (-x) = ulp x := by simp [ulp, expOf]
  unfold roundQ
  rw [hu, neg_div, rne_neg]
  push_cast
  ring

/-- Absolute error of rounding: half a unit in the last place. -/
theorem roundQ_abs_sub_le (x : ℚ) : |roundQ x - x| ≤ ulp x / 2 := by
  have hu := ulp_pos x
  have h := rne_abs_sub_le (x / ulp x)
  have e1 : roundQ x - x = ((rne (x / ulp x) : ℚ) - x / ulp x) * ulp x := by
    unfold roundQ
    field_simp
  rw [e1, abs_mul, abs_of_pos hu]
  calc |((rne (x / ulp x) : ℤ) : ℚ) - x / ulp x| * ulp x ≤ 1 / 2 * ulp x :=
        mul_le_mul_of_nonneg_right h hu.le
    _ = ulp x / 2 := by ring

theorem roundQ_nonneg (x : ℚ) (hx : 0 ≤ x) : 0 ≤ roundQ x := by
  have hu := ulp_pos x
  have h : (0 : ℤ) ≤ rne (x / ulp x) := le_rne _ 0 (by simpa using div_nonneg hx hu.le)
  unfold roundQ
  exact mul_nonneg (by exact_mod_cast h) hu.le

theorem roundQ_nonpos (x : ℚ) (hx : x ≤ 0) : roundQ x ≤ 0 := by
  have h := roundQ_nonneg (-x) (by linarith)
  rw [roundQ_neg] at h
  linarith

theorem log_le_of_lt (x : ℚ) (j : ℤ) (h0 : 0 < |x|) (h : |x| < (2 : ℚ) ^ (j + 1)) :
    Int.log 2 |x| ≤ j := by
  have := (Int.lt_zpow_iff_log_lt (R := ℚ) (b := 2) (by norm_num) h0).mp (by simpa using h)
  omega

theorem le_log_of_le (x : ℚ) (j : ℤ) (h : (2 : ℚ) ^ j ≤ |x|) : j ≤ Int.log 2 |x| := by
  have h0 : 0 < |x| := lt_of_lt_of_le (two_zpow_pos j) h
  exact (Int.zpow_le_iff_le_log (R := ℚ) (b := 2) (by norm_num) h0).mp (by simpa using h)

theorem zpow_log_le (x : ℚ) (h0 : 0 < |x|) : (2 : ℚ) ^ (Int.log 2 |x|) ≤ |x| := by
  simpa using Int.zpow_log_le_self (R := ℚ) (b := 2) (by norm_num) h0

theorem expOf_le (x : ℚ) (j : ℤ) (hj : -1022 ≤ j) (h0 : x ≠ 0) (h : |x| < (2 : ℚ) ^ (j + 1)) :
    expOf x ≤ j := by
  have := log_le_of_lt x j (abs_pos.mpr h0) h
  unfold expOf
  exact max_le this hj

theorem expOf_eq_log (x : ℚ) (h : (2 : ℚ) ^ (-1022 : ℤ) ≤ |x|) : expOf x = Int.log 2 |x| := by
  have := le_log_of_le x _ h
  unfold expOf
  exact max_eq_left this

theorem ge_expOf (x : ℚ) : -1022 ≤ expOf x := le_max_right _ _

/-- Relative error of rounding in the normal range: `2 ^ -53`. -/
theorem roundQ_rel (x : ℚ) (h : (2 : ℚ) ^ (-1022 : ℤ) ≤ |x|) :
    |roundQ x - x| ≤ |x| / 2 ^ 53 := by
  have h0 : 0 < |x| := lt_of_lt_of_le (two_zpow_pos _) h
  have h1 := roundQ_abs_sub_le x
  have h2 := zpow_log_le x h0
  have h3 : ulp x = (2 : ℚ) ^ (Int.log 2 |x|) / 2 ^ 52 := by
    unfold ulp
    rw [expOf_eq_log x h, zpow_sub₀ (by norm_num)]
    norm_num
  rw [h3] at h1
  calc |roundQ x - x| ≤ (2 : ℚ) ^ (Int.log 2 |x|) / 2 ^ 52 / 2 := h1
    _ = (2 : ℚ) ^ (Int.log 2 |x|) / 2 ^ 53 := by ring
    _ ≤ |x| / 2 ^ 53 := by
        apply div_le_div_of_nonneg_right h2 (by positivity)

/-- Absolute error of rounding below a power of two. -/
theorem roundQ_abs_sub_le_of_lt (x : ℚ) (j : ℤ) (hj : -1022 ≤ j)
    (h : |x| < (2 : ℚ) ^ (j + 1)) : |roundQ x - x| ≤ (2 : ℚ) ^ (j - 53) := by
  by_cases h0 : x = 0
  · subst h0
    simp [roundQ_zero]
    exact (two_zpow_pos _).le
  · have h1 := roundQ_abs_sub_le x
    have h2 := expOf_le x j hj h0 h
    have h3 : ulp x / 2 = (2 : ℚ) ^ (expOf x - 53) := by
      unfold ulp
      rw [zpow_sub₀ (by norm_num), zpow_sub₀ (by norm_num)]
      norm_num
      ring
    rw [h3] at h1
    exact h1.trans (zpow_le_zpow_right₀ (by norm_num) (by omega))

/-- Rounding never crosses a power of two from above. -/
theorem le_roundQ_of_zpow_le (x : ℚ) (j : ℤ) (hj : -1022 ≤ j) (h : (2 : ℚ) ^ j ≤ x) :
    (2 : ℚ) ^ j ≤ roundQ x := by
  have hx0 : 0 < x := lt_of_lt_of_le (two_zpow_pos j) h
  have habs : |x| = x := abs_of_pos hx0
  have hjl : j ≤ Int.log 2 |x| := le_log_of_le x j (by rw [habs]; exact h)
  have he : expOf x = Int.log 2 |x| := by
    unfold expOf
    exact max_eq_left (by omega)
  have hlog := zpow_log_le x (by rw [habs]; exact hx0)
  rw [habs] at hlog
  have hu := ulp_pos x
  have hdiv : (((2 : ℤ) ^ (52 : ℕ) : ℤ) : ℚ) ≤ x / ulp x := by
    rw [le_div_iff₀ hu]
    unfold ulp
    rw [he]
    push_cast
    calc (2 : ℚ) ^ (52 : ℕ) * 2 ^ (Int.log 2 |x| - 52)
        = 2 ^ (Int.log 2 |x|) := by
          rw [zpow_sub₀ (by norm_num)]
          norm_num
          field_simp
      _ ≤ x := by rw [habs]; exact hlog
  have hr := le_rne _ _ hdiv
  have hr' : ((2 : ℚ) ^ (52 : ℕ)) ≤ (rne (x / ulp x) : ℚ) := by exact_mod_cast hr
  calc (2 : ℚ) ^ j ≤ 2 ^ (Int.log 2 |x|) := zpow_le_zpow_right₀ (by norm_num) hjl
    _ = (2 : ℚ) ^ (52 : ℕ) * ulp x := by
          unfold ulp
          rw [he, zpow_sub₀ (by norm_num)]
          norm_num
          field_simp
    _ ≤ (rne (x / ulp x) : ℚ) * ulp x := mul_le_mul_of_nonneg_right hr' hu.le
    _ = roundQ x := rfl

/-- Rounding never crosses a power of two from below. -/
theorem roundQ_le_of_le_zpow (x : ℚ) (j : ℤ) (hj : -1074 ≤ j) (h : x ≤ (2 : ℚ) ^ j) :
    roundQ x ≤ (2 : ℚ) ^ j := by
  rcases le_or_lt x 0 with hx | hx
  · exact (roundQ_nonpos x hx).trans (two_zpow_pos j).le
  · have habs : |x| = x := abs_of_pos hx
    have he : expOf x ≤ j + 52 := by
      rcases eq_or_lt_of_le h with heq | hlt
      · have : Int.log 2 |x| = j := by
          rw [habs, heq]
          simpa using Int.log_zpow (R := ℚ) (b := 2) (by norm_num) j
        unfold expOf
        rw [this]
        exact max_le (by omega) (by omega)
      · have h1 : |x| < (2 : ℚ) ^ (j - 1 + 1) := by
          rw [habs]
          simpa using hlt
        have := log_le_of_lt x (j - 1) (by rw [habs]; exact hx) h1
        unfold expOf
        exact max_le (by omega) (by omega)
    have hu := ulp_pos x
    obtain ⟨t, ht⟩ : ∃ t : ℕ, (t : ℤ) = j + 52 - expOf x := ⟨(j + 52 - expOf x).toNat, by omega⟩
    have hpow : (2 : ℚ) ^ j = (((2 : ℤ) ^ t : ℤ) : ℚ) * ulp x := by
      unfold ulp
      push_cast
      rw [← zpow_natCast, ht, ← zpow_add₀ (by norm_num)]
      congr 1
      ring
    have hdiv : x / ulp x ≤ (((2 : ℤ) ^ t : ℤ) : ℚ) := by
      rw [div_le_iff₀ hu, ← hpow]
      exact h
    have hr := rne_le _ _ hdiv
    have hr' : (rne (x / ulp x) : ℚ) ≤ (((2 : ℤ) ^ t : ℤ) : ℚ) := by exact_mod_cast hr
    rw [hpow]
    exact mul_le_mul_of_nonneg_right hr' hu.le

theorem abs_roundQ_le (x : ℚ) (j : ℤ) (hj : -1074 ≤ j) (h : |x| ≤ (2 : ℚ) ^ j) :
    |roundQ x| ≤ (2 : ℚ) ^ j := by
  rw [abs_le] at h ⊢
  constructor
  · have := roundQ_le_of_le_zpow (-x) j hj (by linarith)
    rw [roundQ_neg] at this
    linarith
  · exact roundQ_le_of_le_zpow x j hj h.2

/-- No overflow: a result of magnitude at most `2 ^ 1023` rounds to a finite value. -/
theorem round_eq_fin (x : ℚ) (h : |x| ≤ (2 : ℚ) ^ (1023 : ℤ)) : round x = fin (roundQ x) := by
  have h1 := abs_roundQ_le x 1023 (by norm_num) h
  rw [abs_le] at h1
  have h2 : (2 : ℚ) ^ (1023 : ℤ) < (2 : ℚ) ^ (1024 : ℕ) := by
    rw [← zpow_natCast]
    exact zpow_lt_zpow_right₀ (by norm_num) (by norm_num)
  unfold round
  rw [if_neg (by linarith), if_neg (by linarith)]

/-- Values `m * 2 ^ k` with a significand below `2 ^ 53` are on the grid. -/
theorem roundQ_exact (m k : ℤ) (hm : |m| < 2 ^ 53) (hk : -1074 ≤ k) :
    roundQ ((m : ℚ) * (2 : ℚ) ^ k) = (m : ℚ) * (2 : ℚ) ^ k := by
  by_cases hm0 : m = 0
  · subst hm0
    simp [roundQ_zero]
  obtain ⟨x, hx⟩ : ∃ x : ℚ, x = (m : ℚ) * (2 : ℚ) ^ k := ⟨_, rfl⟩
  rw [← hx]
  have hx0 : x ≠ 0 := by
    rw [hx]
    exact mul_ne_zero (by exact_mod_cast hm0) (two_zpow_pos k).ne'
  have hlt : |x| < (2 : ℚ) ^ (k + 52 + 1) := by
    rw [hx, abs_mul, abs_of_pos (two_zpow_pos k)]
    have hm' : |(m : ℚ)| < (2 : ℚ) ^ (53 : ℤ) := by
      have : ((|m| : ℤ) : ℚ) < (((2 : ℤ) ^ 53 : ℤ) : ℚ) := by exact_mod_cast hm
      rw [Int.cast_abs] at this
      norm_num at this ⊢
      exact this
    calc |(m : ℚ)| * (2 : ℚ) ^ k < (2 : ℚ) ^ (53 : ℤ) * (2 : ℚ) ^ k :=
          mul_lt_mul_of_pos_right hm' (two_zpow_pos k)
      _ = (2 : ℚ) ^ (k + 52 + 1) := by
          rw [← zpow_add₀ (by norm_num)]
          congr 1
          ring
  have he : expOf x ≤ k + 52 := by
    have := log_le_of_lt x (k + 52) (abs_pos.mpr hx0) hlt
    unfold expOf
    exact max_le this (by omega)
  obtain ⟨t, ht⟩ : ∃ t : ℕ, (t : ℤ) = k + 52 - expOf x := ⟨(k + 52 - expOf x).toNat, by omega⟩
  have hu := ulp_pos x
  have hk2 : (2 : ℚ) ^ k = (((2 : ℤ) ^ t : ℤ) : ℚ) * ulp x := by
    unfold ulp
    push_cast
    rw [← zpow_natCast, ht, ← zpow_add₀ (by norm_num)]
    congr 1
    ring
  have hfin : x = (((m * 2 ^ t : ℤ)) : ℚ) * ulp x := by
    calc x = (m : ℚ) * (2 : ℚ) ^ k := hx
      _ = (m : ℚ) * ((((2 : ℤ) ^ t : ℤ) : ℚ) * ulp x) := by rw [hk2]
      _ = (((m * 2 ^ t : ℤ)) : ℚ) * ulp x := by
          push_cast
          ring
  have hdiv : x / ulp x = (((m * 2 ^ t : ℤ)) : ℚ) := (div_eq_iff hu.ne').mpr hfin
  unfold roundQ
  rw [hdiv, rne_intCast]
  exact hfin.symm

theorem roundQ_intCast (n : ℤ) (hn : |n| < 2 ^ 53) : roundQ (n : ℚ) = n := by
  simpa using roundQ_exact n 0 hn (by norm_num)

theorem abs_le_two_zpow_of_lt (x : ℚ) (h : |x| < 2 ^ 1000) : |x| ≤ (2 : ℚ) ^ (1023 : ℤ) := by
  have : (2 : ℚ) ^ (1000 : ℕ) ≤ (2 : ℚ) ^ (1023 : ℤ) := by
    rw [← zpow_natCast]
    exact zpow_le_zpow_right₀ (by norm_num) (by norm_num)
  linarith

/-- Conversion of an integer below `2 ^ 53` in magnitude is exact. -/
theorem ofInt_exact (n : ℤ) (hn : |n| < 2 ^ 53) : ofInt n = fin n := by
  have hq : |(n : ℚ)| < 2 ^ 53 := by
    have : ((|n| : ℤ) : ℚ) < (((2 : ℤ) ^ 53 : ℤ) : ℚ) := by exact_mod_cast hn
    simpa using this
  unfold ofInt
  rw [round_eq_fin _ (abs_le_two_zpow_of_lt _ (by linarith [show (2:ℚ)^53 < 2^1000 by norm_num])),
    roundQ_intCast n hn]

end F64

/-! ## Integers and the running total -/

theorem wrap64_eq (z : ℤ) (h1 : -(2 : ℤ) ^ 63 ≤ z) (h2 : z < 2 ^ 63) : wrap64 z = z := by
  unfold wrap64
  omega

theorem Update_current (pb : ProgressBar) (n now : ℤ) :
    (Update pb n now).1.current = wrap64 (pb.current + n) := rfl

theorem Update_total (pb : ProgressBar) (n now : ℤ) : (Update pb n now).1.total = pb.total := rfl

theorem Update_width (pb : ProgressBar) (n now : ℤ) : (Update pb n now).1.width = pb.width := rfl

theorem runUpdates_append (pb : ProgressBar) (xs ys : List (ℤ × ℤ)) :
    runUpdates pb (xs ++ ys) = runUpdates (runUpdates pb xs) ys := by
  induction xs generalizing pb with
  | nil => rfl
  | cons c cs ih => simp [runUpdates, ih]

theorem runUpdates_total (pb : ProgressBar) (calls : List (ℤ × ℤ)) :
    (runUpdates pb calls).total = pb.total := by
  induction calls generalizing pb with
  | nil => rfl
  | cons c cs ih => simp [runUpdates, ih, Update_total]

theorem runUpdates_width (pb : ProgressBar) (calls : List (ℤ × ℤ)) :
    (runUpdates pb calls).width = pb.width := by
  induction calls generalizing pb with
  | nil => rfl
  | cons c cs ih => simp [runUpdates, ih, Update_width]

theorem runUpdates_current (pb : ProgressBar) (calls : List (ℤ × ℤ))
    (h0 : 0 ≤ pb.current) (hn : ∀ c ∈ calls, 0 ≤ c.1)
    (hs : pb.current + (calls.map Prod.fst).sum < 2 ^ 63) :
    (runUpdates pb calls).current = pb.current + (calls.map Prod.fst).sum := by
  induction calls generalizing pb with
  | nil => simp [runUpdates]
  | cons c cs ih =>
    have hc : 0 ≤ c.1 := hn c (List.mem_cons_self _ _)
    have hcs : ∀ d ∈ cs, 0 ≤ d.1 := fun d hd => hn d (List.mem_cons_of_mem _ hd)
    have hnn : 0 ≤ (cs.map Prod.fst).sum :=
      List.sum_nonneg (by
        intro x hx
        obtain ⟨d, hd, rfl⟩ := List.mem_map.mp hx
        exact hcs d hd)
    simp only [List.map_cons, List.sum_cons] at hs
    have hw : (Update pb c.1 c.2).1.current = pb.current + c.1 := by
      rw [Update_current]
      exact wrap64_eq _ (by linarith) (by linarith)
    simp only [runUpdates, List.map_cons, List.sum_cons]
    rw [ih _ (by rw [hw]; linarith) hcs (by rw [hw]; linarith), hw]
    ring

theorem sum_take_le (calls : List (ℤ × ℤ)) (hn : ∀ c ∈ calls, 0 ≤ c.1) (k : ℕ) :
    ((calls.take k).map Prod.fst).sum ≤ (calls.map Prod.fst).sum := by
  have hd : 0 ≤ ((calls.drop k).map Prod.fst).sum :=
    List.sum_nonneg (by
      intro x hx
      obtain ⟨d, hd, rfl⟩ := List.mem_map.mp hx
      exact hn d (List.mem_of_mem_drop hd))
  have : (calls.map Prod.fst).sum
      = ((calls.take k).map Prod.fst).sum + ((calls.drop k).map Prod.fst).sum := by
    rw [← List.sum_append, ← List.map_append, List.take_append_drop]
  linarith

/-- C1: starting from `NewProgressBar total` and calling `Update` with the
non-negative chunk sizes `n_1 .. n_k` (sum below `2 ^ 63`), `current` after
the `k`-th call is `n_1 + ... + n_k`, and no call decreases `current`. -/
theorem C1_current_is_running_sum (total t0 : ℤ) (calls : List (ℤ × ℤ))
    (hn : ∀ c ∈ calls, 0 ≤ c.1) (hs : (calls.map Prod.fst).sum < 2 ^ 63) (k : ℕ) :
    (runUpdates (NewProgressBar total t0) (calls.take k)).current
        = ((calls.take k).map Prod.fst).sum ∧
      (runUpdates (NewProgressBar total t0) (calls.take k)).current
        ≤ (runUpdates (NewProgressBar total t0) (calls.take (k + 1))).current := by
  have key : ∀ j : ℕ, (runUpdates (NewProgressBar total t0) (calls.take j)).current
      = ((calls.take j).map Prod.fst).sum := by
    intro j
    have h := runUpdates_current (NewProgressBar total t0) (calls.take j) (le_refl _)
      (fun c hc => hn c (List.mem_of_mem_take hc))
      (by
        have := sum_take_le calls hn j
        simp only [NewProgressBar]
        linarith)
    simpa [NewProgressBar] using h
  refine ⟨key k, ?_⟩
  rw [key k, key (k + 1)]
  have h1 := sum_take_le (calls.take (k + 1)) (fun c hc => hn c (List.mem_of_mem_take hc)) k
  rw [List.take_take] at h1
  simpa using h1

theorem C1_current_is_running_sum_witness :
    (∀ c ∈ [((3 : ℤ), (10 : ℤ)), (4, 20), (0, 30)], 0 ≤ c.1) ∧
      (([((3 : ℤ), (10 : ℤ)), (4, 20), (0, 30)].map Prod.fst).sum < 2 ^ 63) ∧
      ((runUpdates (NewProgressBar 7 0) ([((3 : ℤ), (10 : ℤ)), (4, 20), (0, 30)].take 2)).current
        = (([((3 : ℤ), (10 : ℤ)), (4, 20), (0, 30)].take 2).map Prod.fst).sum ∧
      (runUpdates (NewProgressBar 7 0) ([((3 : ℤ), (10 : ℤ)), (4, 20), (0, 30)].take 2)).current
        ≤ (runUpdates (NewProgressBar 7 0)
            ([((3 : ℤ), (10 : ℤ)), (4, 20), (0, 30)].take (2 + 1))).current) :=
  ⟨by decide, by decide,
    C1_current_is_running_sum 7 0 [(3, 10), (4, 20), (0, 30)] (by decide) (by decide) 2⟩


/-! ## The sampling threshold -/

theorem tdiv_tmod_facts (d : ℤ) :
    d = d.tdiv 1000000000 * 1000000000 + d.tmod 1000000000 ∧
    (0 ≤ d → 0 ≤ d.tdiv 1000000000 ∧ 0 ≤ d.tmod 1000000000 ∧ d.tmod 1000000000 < 1000000000) ∧
    (d < 0 → d.tdiv 1000000000 ≤ 0 ∧ d.tmod 1000000000 ≤ 0 ∧ -1000000000 < d.tmod 1000000000) := by
  have h1 := Int.tmod_add_tdiv d 1000000000
  refine ⟨by linarith, ?_, ?_⟩
  · intro hd
    rw [Int.tdiv_eq_ediv hd (by norm_num), Int.tmod_eq_emod hd (by norm_num)]
    omega
  · intro hd
    obtain ⟨a, rfl⟩ : ∃ a : ℤ, d = -a := ⟨-d, by ring⟩
    have ha : 0 ≤ a := by linarith
    rw [Int.tmod_def, Int.neg_tdiv, Int.tdiv_eq_ediv ha (by norm_num)]
    omega

theorem seconds_eq (d : ℤ) (h1 : -(2 : ℤ) ^ 63 ≤ d) (h2 : d < 2 ^ 63) :
    seconds d = F64.fin (F64.roundQ ((d.tdiv 1000000000 : ℚ)
      + F64.roundQ ((d.tmod 1000000000 : ℚ) / 1000000000))) ∧
    |F64.roundQ ((d.tmod 1000000000 : ℚ) / 1000000000)| ≤ 1 := by
  obtain ⟨hd, hp, hn⟩ := tdiv_tmod_facts d
  have hs : |d.tdiv 1000000000| < 2 ^ 53 := by
    rw [abs_lt]
    rcases le_or_lt 0 d with h | h
    · have := hp h
      constructor <;> omega
    · have := hn h
      constructor <;> omega
  have hr : |d.tmod 1000000000| < 2 ^ 53 := by
    rw [abs_lt]
    rcases le_or_lt 0 d with h | h
    · have := hp h
      constructor <;> omega
    · have := hn h
      constructor <;> omega
  have hr1 : |((d.tmod 1000000000 : ℤ) : ℚ) / 1000000000| ≤ 1 := by
    rw [abs_div, abs_of_pos (by norm_num : (0 : ℚ) < 1000000000), div_le_one (by norm_num)]
    have : |d.tmod 1000000000| ≤ 1000000000 := by
      rw [abs_le]
      rcases le_or_lt 0 d with h | h
      · have := hp h
        constructor <;> omega
      · have := hn h
        constructor <;> omega
    exact_mod_cast this
  have hq1 : |F64.roundQ (((d.tmod 1000000000 : ℤ) : ℚ) / 1000000000)| ≤ 1 := by
    simpa using F64.abs_roundQ_le _ 0 (by norm_num) (by simpa using hr1)
  have hsq : |((d.tdiv 1000000000 : ℤ) : ℚ)| < 2 ^ 53 := by
    have : ((|d.tdiv 1000000000| : ℤ) : ℚ) < (((2 : ℤ) ^ 53 : ℤ) : ℚ) := by exact_mod_cast hs
    simpa using this
  refine ⟨?_, hq1⟩
  unfold seconds
  rw [F64.ofInt_exact _ hs, F64.ofInt_exact _ hr]
  have e1 : F64.div (F64.fin (d.tmod 1000000000 : ℚ)) (F64.fin 1000000000)
      = F64.fin (F64.roundQ (((d.tmod 1000000000 : ℤ) : ℚ) / 1000000000)) := by
    simp only [F64.div]
    rw [if_neg (by norm_num)]
    exact F64.round_eq_fin _ (F64.abs_le_two_zpow_of_lt _ (by
      calc |((d.tmod 1000000000 : ℤ) : ℚ) / 1000000000| ≤ 1 := hr1
        _ < 2 ^ 1000 := by norm_num))
  rw [e1]
  simp only [F64.add]
  exact F64.round_eq_fin _ (F64.abs_le_two_zpow_of_lt _ (by
    calc |((d.tdiv 1000000000 : ℤ) : ℚ)
          + F64.roundQ (((d.tmod 1000000000 : ℤ) : ℚ) / 1000000000)|
        ≤ |((d.tdiv 1000000000 : ℤ) : ℚ)|
          + |F64.roundQ (((d.tmod 1000000000 : ℤ) : ℚ) / 1000000000)| := abs_add _ _
      _ < 2 ^ 53 + 1 := by linarith
      _ < 2 ^ 1000 := by norm_num))

/-- The float comparison `elapsed >= 0.5` of `Update` holds exactly when the
duration is at least 500 000 000 ns. -/
theorem seconds_ge_half (d : ℤ) (h1 : -(2 : ℤ) ^ 63 ≤ d) (h2 : d < 2 ^ 63) :
    F64.ge (seconds d) (F64.fin (1 / 2)) = decide (500000000 ≤ d) := by
  obtain ⟨hsec, hq1⟩ := seconds_eq d h1 h2
  obtain ⟨hd, hp, hn⟩ := tdiv_tmod_facts d
  rw [hsec]
  simp only [F64.ge]
  rw [decide_eq_decide]
  rw [abs_le] at hq1
  rcases lt_or_le d 0 with hneg | hpos
  · -- negative duration: both parts are non-positive
    obtain ⟨hs, hr, _⟩ := hn hneg
    have hsq : ((d.tdiv 1000000000 : ℤ) : ℚ) ≤ 0 := by exact_mod_cast hs
    have hrq : ((d.tmod 1000000000 : ℤ) : ℚ) / 1000000000 ≤ 0 :=
      div_nonpos_of_nonpos_of_nonneg (by exact_mod_cast hr) (by norm_num)
    have h3 := F64.roundQ_nonpos _ hrq
    have h4 := F64.roundQ_nonpos (((d.tdiv 1000000000 : ℤ) : ℚ)
      + F64.roundQ (((d.tmod 1000000000 : ℤ) : ℚ) / 1000000000)) (by linarith)
    constructor
    · intro h
      linarith
    · intro h
      omega
  · obtain ⟨hs, hr, hr'⟩ := hp hpos
    have hrq : 0 ≤ ((d.tmod 1000000000 : ℤ) : ℚ) / 1000000000 :=
      div_nonneg (by exact_mod_cast hr) (by norm_num)
    have h3 := F64.roundQ_nonneg _ hrq
    rcases lt_or_le d 1000000000 with hlt | hge
    · -- less than a second: the whole-seconds part is zero
      have hs0 : d.tdiv 1000000000 = 0 := by omega
      have hrd : d.tmod 1000000000 = d := by omega
      rw [hrd] at hrq h3
      rw [hs0, hrd]
      simp only [Int.cast_zero, zero_add]
      rcases lt_or_le d 500000000 with hsmall | hbig
      · have hx : ((d : ℤ) : ℚ) / 1000000000 ≤ 499999999 / 1000000000 := by
          rw [div_le_div_iff_of_pos_right (by norm_num)]
          have : d ≤ 499999999 := by omega
          exact_mod_cast this
        have hx2 : |((d : ℤ) : ℚ) / 1000000000| < (2 : ℚ) ^ ((-2 : ℤ) + 1) := by
          rw [abs_of_nonneg hrq]
          norm_num
          linarith
        have e1 := F64.roundQ_abs_sub_le_of_lt _ (-2) (by norm_num) hx2
        rw [abs_le] at e1
        have hy : F64.roundQ (((d : ℤ) : ℚ) / 1000000000) ≤ 499999999 / 1000000000
            + (2 : ℚ) ^ ((-2 : ℤ) - 53) := by linarith
        have hy2 : |F64.roundQ (((d : ℤ) : ℚ) / 1000000000)| < (2 : ℚ) ^ ((-2 : ℤ) + 1) := by
          rw [abs_of_nonneg h3]
          norm_num at hy ⊢
          linarith
        have e2 := F64.roundQ_abs_sub_le_of_lt _ (-2) (by norm_num) hy2
        rw [abs_le] at e2
        constructor
        · intro h
          exfalso
          norm_num at hy e2 h
          linarith
        · intro h
          omega
      · have hx : (2 : ℚ) ^ (-1 : ℤ) ≤ ((d : ℤ) : ℚ) / 1000000000 := by
          rw [le_div_iff₀ (by norm_num)]
          have : ((500000000 : ℤ) : ℚ) ≤ (d : ℚ) := by exact_mod_cast hbig
          norm_num at this ⊢
          linarith
        have e1 := F64.le_roundQ_of_zpow_le _ (-1) (by norm_num) hx
        have e2 := F64.le_roundQ_of_zpow_le _ (-1) (by norm_num) e1
        constructor
        · intro _
          exact hbig
        · intro _
          norm_num at e2 ⊢
          linarith
    · -- at least one whole second
      have hs1 : (1 : ℤ) ≤ d.tdiv 1000000000 := by omega
      have hsq : (1 : ℚ) ≤ ((d.tdiv 1000000000 : ℤ) : ℚ) := by exact_mod_cast hs1
      have e1 := F64.le_roundQ_of_zpow_le (((d.tdiv 1000000000 : ℤ) : ℚ)
        + F64.roundQ (((d.tmod 1000000000 : ℤ) : ℚ) / 1000000000)) 0 (by norm_num)
        (by simp only [zpow_zero]; linarith)
      simp only [zpow_zero] at e1
      constructor
      · intro _
        omega
      · intro _
        linarith

theorem wrap64_range (z : ℤ) : -(2 : ℤ) ^ 63 ≤ wrap64 z ∧ wrap64 z < 2 ^ 63 := by
  unfold wrap64
  omega

theorem timeSub_facts (t u : ℤ) (ht1 : -(2 : ℤ) ^ 63 ≤ t) (ht2 : t < 2 ^ 63)
    (hu1 : -(2 : ℤ) ^ 63 ≤ u) (hu2 : u < 2 ^ 63) :
    (-(2 : ℤ) ^ 63 ≤ timeSub t u ∧ timeSub t u < 2 ^ 63) ∧
      (500000000 ≤ timeSub t u ↔ 500000000 ≤ t - u) := by
  unfold timeSub wrap64
  simp only
  split_ifs <;> omega

theorem Update_speed (pb : ProgressBar) (n now : ℤ) :
    (Update pb n now).1.speed =
      if F64.ge (seconds (timeSub now pb.lastUpdate)) (F64.fin (1 / 2)) = true
      then F64.div (F64.ofInt n) (seconds (timeSub now pb.lastUpdate)) else pb.speed := rfl

theorem Update_lastUpdate (pb : ProgressBar) (n now : ℤ) :
    (Update pb n now).1.lastUpdate =
      if F64.ge (seconds (timeSub now pb.lastUpdate)) (F64.fin (1 / 2)) = true
      then now else pb.lastUpdate := rfl

/-- C2: with the clock as an input, a call `Update n` made less than 0.5 s
after `lastUpdate` leaves `speed` and `lastUpdate` unchanged; made at least
0.5 s after it, `speed` becomes `n / elapsed` (float division by the elapsed
seconds) and `lastUpdate` becomes `now`. -/
theorem C2_rate_sampled_every_half_second (pb : ProgressBar) (n now : ℤ)
    (hnow : -(2 : ℤ) ^ 63 ≤ now ∧ now < 2 ^ 63)
    (hlast : -(2 : ℤ) ^ 63 ≤ pb.lastUpdate ∧ pb.lastUpdate < 2 ^ 63) :
    (Update pb n now).1.speed
      = (if now - pb.lastUpdate < 500000000 then pb.speed
         else F64.div (F64.ofInt n) (seconds (timeSub now pb.lastUpdate))) ∧
    (Update pb n now).1.lastUpdate
      = (if now - pb.lastUpdate < 500000000 then pb.lastUpdate else now) := by
  obtain ⟨hr, hiff⟩ := timeSub_facts now pb.lastUpdate hnow.1 hnow.2 hlast.1 hlast.2
  have hge := seconds_ge_half (timeSub now pb.lastUpdate) hr.1 hr.2
  rw [Update_speed, Update_lastUpdate, hge]
  by_cases h : now - pb.lastUpdate < 500000000
  · have : ¬ (500000000 ≤ timeSub now pb.lastUpdate) := by
      rw [hiff]
      omega
    simp [this, h]
  · have : 500000000 ≤ timeSub now pb.lastUpdate := hiff.mpr (by omega)
    simp [this, h]

theorem C2_rate_sampled_every_half_second_witness :
    (-(2 : ℤ) ^ 63 ≤ 600000000 ∧ (600000000 : ℤ) < 2 ^ 63) ∧
    (-(2 : ℤ) ^ 63 ≤ (NewProgressBar 100 0).lastUpdate ∧
      (NewProgressBar 100 0).lastUpdate < 2 ^ 63) ∧
    ((Update (NewProgressBar 100 0) 10 600000000).1.speed
      = (if 600000000 - (NewProgressBar 100 0).lastUpdate < 500000000
         then (NewProgressBar 100 0).speed
         else F64.div (F64.ofInt 10)
            (seconds (timeSub 600000000 (NewProgressBar 100 0).lastUpdate))) ∧
    (Update (NewProgressBar 100 0) 10 600000000).1.lastUpdate
      = (if 600000000 - (NewProgressBar 100 0).lastUpdate < 500000000
         then (NewProgressBar 100 0).lastUpdate else 600000000)) :=
  ⟨by decide, by decide,
    C2_rate_sampled_every_half_second (NewProgressBar 100 0) 10 600000000
      (by decide) (by decide)⟩

/-! ## The bar -/

theorem Update_percentage (pb : ProgressBar) (n now : ℤ) :
    (Update pb n now).2.percentage =
      F64.div (F64.mul (F64.ofInt (Update pb n now).1.current) (F64.fin 100))
        (F64.ofInt pb.total) := rfl

theorem Update_completed (pb : ProgressBar) (n now : ℤ) :
    (Update pb n now).2.completed =
      F64.toInt64 (F64.div (F64.mul (F64.ofInt pb.width) (F64.ofInt (Update pb n now).1.current))
        (F64.ofInt pb.total)) := rfl

theorem Update_filled (pb : ProgressBar) (n now : ℤ) :
    (Update pb n now).2.filled = (Update pb n now).2.completed.map filledCells := rfl

theorem Update_empty (pb : ProgressBar) (n now : ℤ) :
    (Update pb n now).2.empty = (Update pb n now).2.completed.map (emptyCells pb.width) := rfl

theorem Update_percentText (pb : ProgressBar) (n now : ℤ) :
    (Update pb n now).2.percentText = " " ++ fmtFixed 1 (Update pb n now).2.percentage ++ "% " :=
  rfl

namespace F64

theorem intCast_abs_lt (n : ℤ) (hn1 : -(2 : ℤ) ^ 63 ≤ n) (hn2 : n < 2 ^ 63) :
    |(n : ℚ)| < 2 ^ 1000 := by
  have h1 : -(2 : ℚ) ^ 63 ≤ (n : ℚ) := by exact_mod_cast hn1
  have h2 : (n : ℚ) < (2 : ℚ) ^ 63 := by exact_mod_cast hn2
  have h3 : (2 : ℚ) ^ 63 < 2 ^ 1000 := by norm_num
  rw [abs_lt]
  constructor <;> linarith

/-- Conversion of an `int64` value is finite. -/
theorem ofInt_eq_fin (n : ℤ) (hn1 : -(2 : ℤ) ^ 63 ≤ n) (hn2 : n < 2 ^ 63) :
    ofInt n = fin (roundQ n) :=
  round_eq_fin _ (abs_le_two_zpow_of_lt _ (intCast_abs_lt n hn1 hn2))

/-- Rounding of a value at least one: relative error below one thousandth,
the rounded value is at least one. -/
theorem roundQ_near (x : ℚ) (hx : 1 ≤ x) :
    1 ≤ roundQ x ∧ roundQ x ≤ x * (1001 / 1000) ∧ x * (999 / 1000) ≤ roundQ x := by
  have h1 := le_roundQ_of_zpow_le x 0 (by norm_num) (by simpa using hx)
  have habs : |x| = x := abs_of_pos (by linarith)
  have h2 := roundQ_rel x (by
    rw [habs]
    calc (2 : ℚ) ^ (-1022 : ℤ) ≤ (2 : ℚ) ^ (0 : ℤ) := zpow_le_zpow_right₀ (by norm_num) (by norm_num)
      _ = 1 := by norm_num
      _ ≤ x := hx)
  rw [habs, abs_le] at h2
  have h3 : x / 2 ^ 53 ≤ x / 1000 := by
    apply div_le_div_of_nonneg_left (by linarith) (by norm_num) (by norm_num)
  refine ⟨by simpa using h1, ?_, ?_⟩ <;> linarith

/-- Rounding of a non-negative integer: zero stays zero, a positive integer
is rounded with relative error below one thousandth. -/
theorem roundQ_int_near (n : ℤ) (hn : 0 ≤ n) :
    (n = 0 → roundQ n = 0) ∧
      (0 < n → 1 ≤ roundQ n ∧ roundQ n ≤ n * (1001 / 1000) ∧ n * (999 / 1000) ≤ roundQ n) := by
  constructor
  · intro h
    subst h
    simpa using roundQ_zero
  · intro h
    have : (1 : ℚ) ≤ (n : ℚ) := by exact_mod_cast (by omega : (1 : ℤ) ≤ n)
    exact roundQ_near _ this

/-- The quotient drawn as the bar, for `0 ≤ current ≤ total`, `0 < total`:
a finite value in `[0, 51)`. -/
theorem bar_quotient_bound (c t : ℤ) (hc0 : 0 ≤ c) (hct : c ≤ t) (ht0 : 0 < t) (ht : t < 2 ^ 63) :
    ∃ q : ℚ, div (mul (ofInt 50) (ofInt c)) (ofInt t) = fin q ∧ 0 ≤ q ∧ q < 51 := by
  have h50 : ofInt 50 = fin 50 := by simpa using ofInt_exact 50 (by norm_num)
  rw [h50, ofInt_eq_fin c (by omega) (by omega), ofInt_eq_fin t (by omega) (by omega)]
  obtain ⟨hb1, hb2, hb3⟩ := (roundQ_int_near t ht0.le).2 ht0
  have hcq : (c : ℚ) ≤ (t : ℚ) := by exact_mod_cast hct
  have htq : (0 : ℚ) < (t : ℚ) := by exact_mod_cast ht0
  have htq2 : (t : ℚ) < 2 ^ 63 := by exact_mod_cast ht
  have hc0q : (0 : ℚ) ≤ (c : ℚ) := by exact_mod_cast hc0
  have ha0 : 0 ≤ roundQ (c : ℚ) := roundQ_nonneg _ hc0q
  -- the rounded product is at most `50.2 * t`
  have hp : 0 ≤ roundQ (50 * roundQ (c : ℚ)) ∧
      roundQ (50 * roundQ (c : ℚ)) ≤ (t : ℚ) * (50 * (1001 / 1000) * (1001 / 1000)) := by
    refine ⟨roundQ_nonneg _ (by linarith), ?_⟩
    rcases eq_or_lt_of_le hc0 with h0 | hpos
    · rw [← h0]
      simp only [Int.cast_zero, roundQ_zero, mul_zero]
      positivity
    · obtain ⟨ha1, ha2, _⟩ := (roundQ_int_near c hc0).2 hpos
      obtain ⟨_, hp2, _⟩ := roundQ_near (50 * roundQ (c : ℚ)) (by linarith)
      calc roundQ (50 * roundQ (c : ℚ)) ≤ 50 * roundQ (c : ℚ) * (1001 / 1000) := hp2
        _ ≤ 50 * ((c : ℚ) * (1001 / 1000)) * (1001 / 1000) := by linarith
        _ ≤ 50 * ((t : ℚ) * (1001 / 1000)) * (1001 / 1000) := by linarith
        _ = (t : ℚ) * (50 * (1001 / 1000) * (1001 / 1000)) := by ring
  have hb0 : roundQ (t : ℚ) ≠ 0 := by linarith
  have hbpos : 0 < roundQ (t : ℚ) := by linarith
  have hprod : |(50 : ℚ) * roundQ (c : ℚ)| < 2 ^ 1000 := by
    rw [abs_of_nonneg (by linarith)]
    rcases eq_or_lt_of_le hc0 with h0 | hpos
    · rw [← h0]
      simp only [Int.cast_zero, roundQ_zero, mul_zero]
      positivity
    · obtain ⟨_, ha2, _⟩ := (roundQ_int_near c hc0).2 hpos
      calc (50 : ℚ) * roundQ (c : ℚ) ≤ 50 * ((2 : ℚ) ^ 63 * (1001 / 1000)) := by linarith
        _ < 2 ^ 1000 := by norm_num
  have hquot : 0 ≤ roundQ (50 * roundQ (c : ℚ)) / roundQ (t : ℚ) ∧
      roundQ (50 * roundQ (c : ℚ)) / roundQ (t : ℚ) ≤ 505 / 10 := by
    refine ⟨div_nonneg hp.1 hbpos.le, ?_⟩
    rw [div_le_iff₀ hbpos]
    calc roundQ (50 * roundQ (c : ℚ)) ≤ (t : ℚ) * (50 * (1001 / 1000) * (1001 / 1000)) := hp.2
      _ ≤ 505 / 10 * ((t : ℚ) * (999 / 1000)) := by
          have : (0 : ℚ) ≤ (t : ℚ) * (505 / 10 * (999 / 1000) - 50 * (1001 / 1000) * (1001 / 1000)) :=
            mul_nonneg htq.le (by norm_num)
          linarith
      _ ≤ 505 / 10 * roundQ (t : ℚ) := by linarith
  refine ⟨roundQ (roundQ (50 * roundQ (c : ℚ)) / roundQ (t : ℚ)), ?_, ?_, ?_⟩
  · simp only [mul]
    rw [round_eq_fin _ (abs_le_two_zpow_of_lt _ hprod)]
    simp only [div]
    rw [if_neg hb0]
    exact round_eq_fin _ (abs_le_two_zpow_of_lt _ (by
      rw [abs_of_nonneg hquot.1]
      calc roundQ (50 * roundQ (c : ℚ)) / roundQ (t : ℚ) ≤ 505 / 10 := hquot.2
        _ < 2 ^ 1000 := by norm_num))
  · exact roundQ_nonneg _ hquot.1
  · have hlt : |roundQ (50 * roundQ (c : ℚ)) / roundQ (t : ℚ)| < (2 : ℚ) ^ ((5 : ℤ) + 1) := by
      rw [abs_of_nonneg hquot.1]
      norm_num
      linarith [hquot.2]
    have e := roundQ_abs_sub_le_of_lt _ 5 (by norm_num) hlt
    rw [abs_le] at e
    have e2 : (2 : ℚ) ^ ((5 : ℤ) - 53) ≤ 1 / 10 := by
      calc (2 : ℚ) ^ ((5 : ℤ) - 53) ≤ (2 : ℚ) ^ (-4 : ℤ) :=
            zpow_le_zpow_right₀ (by norm_num) (by norm_num)
        _ ≤ 1 / 10 := by norm_num
    linarith [hquot.2, e.2]

theorem toInt64_fin_nonneg (q : ℚ) (h0 : 0 ≤ q) (h1 : q < 2 ^ 63) :
    toInt64 (fin q) = some ⌊q⌋ := by
  have hf0 : 0 ≤ ⌊q⌋ := Int.floor_nonneg.mpr h0
  have hf1 : ⌊q⌋ < 2 ^ 63 := by
    rw [Int.floor_lt]
    exact_mod_cast h1
  simp only [toInt64, if_pos h0]
  rw [if_pos ⟨by omega, hf1⟩]

end F64

namespace F64

theorem round_eq_of_eq_int (x : ℚ) (n : ℤ) (hx : x = (n : ℚ)) (hn : |n| < 2 ^ 53) :
    round x = fin x := by
  rw [hx]
  exact ofInt_exact n hn

theorem toInt64_div_zero (x : F64) : toInt64 (div x (fin 0)) = none := by
  cases x with
  | fin a =>
    simp only [div, if_true]
    split_ifs <;> rfl
  | pinf => simp [div, toInt64]
  | ninf => simp [div, toInt64]
  | nan => rfl

theorem toInt64_intCast (n : ℤ) (h0 : 0 ≤ n) (h1 : n < 2 ^ 63) :
    toInt64 (fin (n : ℚ)) = some n := by
  rw [toInt64_fin_nonneg _ (by exact_mod_cast h0) (by exact_mod_cast h1), Int.floor_intCast]

end F64

/-- C3 (as stated, refuted): with `total = 100 > 0` and `current = 200 ≥ 0`
the variable `completed` is `100`, above `width = 50`, and 100 filled cells
are drawn. -/
theorem C3_completed_exceeds_width :
    0 < (NewProgressBar 100 0).total ∧
    0 ≤ (Update (NewProgressBar 100 0) 200 0).1.current ∧
    (NewProgressBar 100 0).width = 50 ∧
    (Update (NewProgressBar 100 0) 200 0).2.completed = some 100 ∧
    (Update (NewProgressBar 100 0) 200 0).2.filled = some 100 ∧
    ¬ ((100 : ℤ) ≤ (NewProgressBar 100 0).width) := by
  have hc : (Update (NewProgressBar 100 0) 200 0).1.current = 200 := by decide
  have hcomp : (Update (NewProgressBar 100 0) 200 0).2.completed = some 100 := by
    rw [Update_completed, hc]
    simp only [NewProgressBar]
    rw [F64.ofInt_exact 50 (by norm_num), F64.ofInt_exact 200 (by norm_num),
      F64.ofInt_exact 100 (by norm_num)]
    simp only [F64.mul]
    rw [F64.round_eq_of_eq_int _ 10000 (by norm_num) (by norm_num)]
    simp only [F64.div]
    rw [if_neg (by norm_num), F64.round_eq_of_eq_int _ 100 (by norm_num) (by norm_num)]
    have : ((50 : ℤ) : ℚ) * ((200 : ℤ) : ℚ) / ((100 : ℤ) : ℚ) = ((100 : ℤ) : ℚ) := by norm_num
    rw [this]
    exact F64.toInt64_intCast 100 (by norm_num) (by norm_num)
  refine ⟨by decide, by rw [hc]; decide, rfl, hcomp, ?_, by decide⟩
  rw [Update_filled, hcomp]
  rfl

/-- C3 (amended): when the accumulated `current` satisfies
`0 ≤ current ≤ total` with `total > 0`, the variable `completed` of `Update`
lies in `[0, width]` (`width = 50`) and that many filled cells are drawn. -/
theorem C3_completed_within_width (pb : ProgressBar) (n now : ℤ)
    (hw : pb.width = 50) (ht0 : 0 < pb.total) (ht : pb.total < 2 ^ 63)
    (hc0 : 0 ≤ (Update pb n now).1.current)
    (hct : (Update pb n now).1.current ≤ pb.total) :
    ∃ k : ℤ, (Update pb n now).2.completed = some k ∧ 0 ≤ k ∧ k ≤ pb.width ∧
      (Update pb n now).2.filled = some (filledCells k) ∧
      ((filledCells k : ℕ) : ℤ) ≤ pb.width := by
  obtain ⟨q, hq, hq0, hq1⟩ :=
    F64.bar_quotient_bound (Update pb n now).1.current pb.total hc0 hct ht0 ht
  have hcomp : (Update pb n now).2.completed = some ⌊q⌋ := by
    rw [Update_completed, hw, hq]
    exact F64.toInt64_fin_nonneg q hq0 (by
      calc q < 51 := hq1
        _ < 2 ^ 63 := by norm_num)
  have hf0 : 0 ≤ ⌊q⌋ := Int.floor_nonneg.mpr hq0
  have hf1 : ⌊q⌋ < 51 := by
    rw [Int.floor_lt]
    exact_mod_cast hq1
  refine ⟨⌊q⌋, hcomp, hf0, by rw [hw]; omega, ?_, ?_⟩
  · rw [Update_filled, hcomp]
    rfl
  · unfold filledCells
    rw [hw]
    omega

theorem C3_completed_within_width_witness :
    (NewProgressBar 200 0).width = 50 ∧ 0 < (NewProgressBar 200 0).total ∧
    (NewProgressBar 200 0).total < 2 ^ 63 ∧
    0 ≤ (Update (NewProgressBar 200 0) 50 7).1.current ∧
    (Update (NewProgressBar 200 0) 50 7).1.current ≤ (NewProgressBar 200 0).total ∧
    ∃ k : ℤ, (Update (NewProgressBar 200 0) 50 7).2.completed = some k ∧ 0 ≤ k ∧
      k ≤ (NewProgressBar 200 0).width ∧
      (Update (NewProgressBar 200 0) 50 7).2.filled = some (filledCells k) ∧
      ((filledCells k : ℕ) : ℤ) ≤ (NewProgressBar 200 0).width :=
  ⟨by decide, by decide, by decide, by decide, by decide,
    C3_completed_within_width (NewProgressBar 200 0) 50 7
      (by decide) (by decide) (by decide) (by decide) (by decide)⟩

/-- With `total = 0` and a non-negative accumulated `current`, lines 57-58
divide by the float zero: the percentage is NaN (`current = 0`) or `+Inf`
(`current > 0`) and the integer `completed` is the conversion of a value that
is not finite, which the language does not fix. -/
theorem Update_zero_total (pb : ProgressBar) (n now : ℤ)
    (ht : pb.total = 0) (hc0 : 0 ≤ (Update pb n now).1.current) :
    (Update pb n now).2.percentage
        = (if (Update pb n now).1.current = 0 then F64.nan else F64.pinf) ∧
      (Update pb n now).2.completed = none ∧
      (Update pb n now).2.filled = none ∧ (Update pb n now).2.empty = none := by
  have hcomp : (Update pb n now).2.completed = none := by
    rw [Update_completed, ht, F64.ofInt_exact 0 (by norm_num)]
    simpa using F64.toInt64_div_zero _
  refine ⟨?_, hcomp, by rw [Update_filled, hcomp]; rfl, by rw [Update_empty, hcomp]; rfl⟩
  obtain ⟨hr1, hr2⟩ : -(2 : ℤ) ^ 63 ≤ (Update pb n now).1.current ∧
      (Update pb n now).1.current < 2 ^ 63 := by
    rw [Update_current]
    exact wrap64_range _
  rw [Update_percentage, ht, F64.ofInt_exact 0 (by norm_num), F64.ofInt_eq_fin _ hr1 hr2]
  obtain ⟨hz, hp⟩ := F64.roundQ_int_near _ hc0
  by_cases h : (Update pb n now).1.current = 0
  · rw [if_pos h, hz h]
    simp only [F64.mul]
    rw [F64.round_eq_of_eq_int _ 0 (by norm_num) (by norm_num)]
    simp [F64.div]
  · rw [if_neg h]
    obtain ⟨h1, h2, _⟩ := hp (by omega)
    have hlt : (((Update pb n now).1.current : ℤ) : ℚ) < 2 ^ 63 := by exact_mod_cast hr2
    have hx : (1 : ℚ) ≤ F64.roundQ (((Update pb n now).1.current : ℤ) : ℚ) * 100 := by linarith
    obtain ⟨h3, _, _⟩ := F64.roundQ_near _ hx
    simp only [F64.mul]
    rw [F64.round_eq_fin _ (F64.abs_le_two_zpow_of_lt _ (by
      rw [abs_of_nonneg (by linarith)]
      calc F64.roundQ (((Update pb n now).1.current : ℤ) : ℚ) * 100
          ≤ (2 : ℚ) ^ 63 * (1001 / 1000) * 100 := by linarith
        _ < 2 ^ 1000 := by norm_num))]
    have hpos : (0 : ℚ) < F64.roundQ (F64.roundQ (((Update pb n now).1.current : ℤ) : ℚ) * 100) := by
      linarith
    simp only [F64.div, Int.cast_zero, if_true]
    rw [if_neg hpos.ne', if_pos hpos]

/-- C4 (the code at the failing input): for a tracker built with `total = 0`,
`Update 0` computes the percentage NaN and `Update 1048576` the percentage
`+Inf`, printed ` +Inf% `; `completed` is the conversion of a non-finite
float, not fixed by the language, and with the amd64 value `-2 ^ 63` the
loop of lines 75-77 draws `2 ^ 63 + 50` empty cells before anything else is
printed. -/
theorem C4_zero_total_not_finite :
    (NewProgressBar 0 0).total = 0 ∧
    (Update (NewProgressBar 0 0) 0 0).2.percentage = F64.nan ∧
    (Update (NewProgressBar 0 0) 1048576 0).2.percentage = F64.pinf ∧
    (Update (NewProgressBar 0 0) 1048576 0).2.percentText = " +Inf% " ∧
    (Update (NewProgressBar 0 0) 1048576 0).2.completed = none ∧
    F64.toInt64_amd64 (F64.div (F64.mul (F64.ofInt (NewProgressBar 0 0).width)
        (F64.ofInt (Update (NewProgressBar 0 0) 1048576 0).1.current))
      (F64.ofInt (NewProgressBar 0 0).total)) = -(2 : ℤ) ^ 63 ∧
    filledCells (-(2 : ℤ) ^ 63) = 0 ∧
    emptyCells (NewProgressBar 0 0).width (-(2 : ℤ) ^ 63) = 2 ^ 63 + 50 := by
  have h0 := Update_zero_total (NewProgressBar 0 0) 0 0 rfl (by decide)
  have h1 := Update_zero_total (NewProgressBar 0 0) 1048576 0 rfl (by decide)
  have hc0 : (Update (NewProgressBar 0 0) 0 0).1.current = 0 := by decide
  have hc1 : (Update (NewProgressBar 0 0) 1048576 0).1.current ≠ 0 := by decide
  rw [if_pos hc0] at h0
  rw [if_neg hc1] at h1
  have hcomp := h1.2.1
  rw [Update_completed] at hcomp
  refine ⟨rfl, h0.1, h1.1, ?_, h1.2.1, ?_, by decide, by decide⟩
  · rw [Update_percentText, h1.1]
    decide
  · unfold F64.toInt64_amd64
    rw [hcomp]
    rfl

theorem rne_half_even (f : ℤ) (hf : f % 2 = 0) : rne ((f : ℚ) + 1 / 2) = f := by
  have hfl : ⌊(f : ℚ) + 1 / 2⌋ = f := by
    rw [Int.floor_eq_iff]
    constructor <;> linarith
  unfold rne
  simp only [hfl]
  rw [if_neg (by linarith), if_neg (by linarith), if_pos hf]

theorem rne_half_odd (f : ℤ) (hf : f % 2 = 1) : rne ((f : ℚ) + 1 / 2) = f + 1 := by
  have hfl : ⌊(f : ℚ) + 1 / 2⌋ = f := by
    rw [Int.floor_eq_iff]
    constructor <;> linarith
  unfold rne
  simp only [hfl]
  rw [if_neg (by linarith), if_neg (by linarith), if_neg (by omega)]

namespace F64

/-- Evaluation of a rounding from the binade of the argument and the rounded
significand. -/
theorem roundQ_eq_of (x u : ℚ) (e m : ℤ) (he : -1022 ≤ e) (hu : u = (2 : ℚ) ^ (e - 52))
    (hlo' : (2 : ℚ) ^ e ≤ x) (hhi' : x < (2 : ℚ) ^ (e + 1)) (hm : rne (x / u) = m) :
    roundQ x = (m : ℚ) * u := by
  have hx0 : 0 < x := lt_of_lt_of_le (two_zpow_pos e) hlo'
  have hlo : (2 : ℚ) ^ e ≤ |x| := by rw [abs_of_pos hx0]; exact hlo'
  have hhi : |x| < (2 : ℚ) ^ (e + 1) := by rw [abs_of_pos hx0]; exact hhi'
  have h0 : 0 < |x| := lt_of_lt_of_le (two_zpow_pos e) hlo
  have h1 := le_log_of_le x e hlo
  have h2 := log_le_of_lt x e h0 hhi
  have hexp : expOf x = e := by
    unfold expOf
    rw [show Int.log 2 |x| = e by omega]
    exact max_eq_left he
  unfold roundQ ulp
  rw [hexp, ← hu, hm]

theorem round_eq_fin_of_nonneg (x : ℚ) (h0 : 0 ≤ x) (h : x < 2 ^ 1000) :
    round x = fin (roundQ x) :=
  round_eq_fin x (abs_le_two_zpow_of_lt x (by rw [abs_of_nonneg h0]; exact h))

end F64

/-- C6 (as stated, refuted): with `total = 360287970189641 > 0` and one chunk
of that size, `current` equals `total` after the call but `completed` is 49:
49 filled cells and one empty cell are drawn. -/
theorem C6_bar_not_full :
    (0 : ℤ) < 360287970189641 ∧
    (Update (NewProgressBar 360287970189641 0) 360287970189641 0).1.current
      = 360287970189641 ∧
    (Update (NewProgressBar 360287970189641 0) 360287970189641 0).2.completed = some 49 ∧
    (Update (NewProgressBar 360287970189641 0) 360287970189641 0).2.filled = some 49 ∧
    (Update (NewProgressBar 360287970189641 0) 360287970189641 0).2.empty = some 1 := by
  have hc : (Update (NewProgressBar 360287970189641 0) 360287970189641 0).1.current
      = 360287970189641 := by decide
  have hmul : F64.roundQ ((50 : ℚ) * 360287970189641) = 18014398509482048 := by
    rw [F64.roundQ_eq_of _ 4 54 4503599627370512 (by norm_num) (by norm_num) (by norm_num)
      (by norm_num) (by
        have : (50 : ℚ) * 360287970189641 / 4 = ((4503599627370512 : ℤ) : ℚ) + 1 / 2 := by
          norm_num
        rw [this]
        exact rne_half_even _ (by norm_num))]
    norm_num
  have hdiv : F64.roundQ ((18014398509482048 : ℚ) / 360287970189641)
      = 7036874417766399 / 140737488355328 := by
    rw [F64.roundQ_eq_of _ (1 / 140737488355328) 5 7036874417766399 (by norm_num) (by norm_num)
      (by norm_num) (by norm_num) (by
        apply rne_eq_of_abs_lt
        rw [abs_lt]
        constructor <;> norm_num)]
    norm_num
  have hcomp : (Update (NewProgressBar 360287970189641 0) 360287970189641 0).2.completed
      = some 49 := by
    rw [Update_completed, hc]
    simp only [NewProgressBar]
    rw [F64.ofInt_exact 50 (by norm_num), F64.ofInt_exact 360287970189641 (by norm_num)]
    simp only [F64.mul]
    rw [F64.round_eq_fin_of_nonneg _ (by norm_num) (by norm_num)]
    simp only [F64.div]
    rw [if_neg (by norm_num)]
    push_cast
    rw [hmul]
    rw [F64.round_eq_fin_of_nonneg _ (by norm_num) (by norm_num)]
    rw [hdiv]
    rw [F64.toInt64_fin_nonneg _ (by norm_num) (by norm_num)]
    congr 1
    rw [Int.floor_eq_iff]
    constructor <;> norm_num
  refine ⟨by decide, hc, hcomp, ?_, ?_⟩
  · rw [Update_filled, hcomp]
    rfl
  · rw [Update_empty, hcomp]
    rfl

namespace F64

/-- Rounding of a value `m * 2 ^ k` on the grid returns the value itself. -/
theorem round_exact (x : ℚ) (m k : ℤ) (hx : x = (m : ℚ) * (2 : ℚ) ^ k) (hm : |m| < 2 ^ 53)
    (hk : -1074 ≤ k) (hb : |x| < 2 ^ 1000) : round x = fin x := by
  rw [round_eq_fin x (abs_le_two_zpow_of_lt x hb), hx, roundQ_exact m k hm hk]

end F64

theorem fixedText_eq (prec : ℕ) (q : ℚ) (c : ℕ) (hq : 0 ≤ q) (hp : prec ≠ 0)
    (hc : rne (q * (10 : ℚ) ^ prec) = (c : ℤ)) :
    fixedText prec q =
      toString (c / 10 ^ prec) ++ "." ++ padZeros prec (toString (c % 10 ^ prec)) := by
  unfold fixedText
  simp only [abs_of_nonneg hq, hc, Int.toNat_ofNat, if_neg hp, if_neg (not_lt.mpr hq)]
  rfl

theorem fmtFixed_hundred : fmtFixed 1 (F64.fin 100) = "100.0" := by
  simp only [fmtFixed]
  rw [fixedText_eq 1 100 1000 (by norm_num) (by norm_num) (by
    have : (100 : ℚ) * 10 ^ 1 = ((1000 : ℤ) : ℚ) := by norm_num
    rw [this, rne_intCast]
    rfl)]
  decide

theorem runUpdates_snoc (pb : ProgressBar) (calls : List (ℤ × ℤ)) (n now : ℤ) :
    runUpdates pb (calls ++ [(n, now)]) = (Update (runUpdates pb calls) n now).1 := by
  rw [runUpdates_append]
  rfl

/-- C6 (amended): for `0 < total` with `100 * total < 2 ^ 55` and non-negative
chunk sizes whose sum is `total`, after the last `Update` the tracker has
`current = total`, `completed = 50 = width` (50 filled cells, no empty cell)
and the percentage is exactly 100, printed `100.0%`. -/
theorem C6_full_bar_at_completion (total t0 : ℤ) (calls : List (ℤ × ℤ)) (n now : ℤ)
    (ht0 : 0 < total) (hsmall : 100 * total < 2 ^ 55)
    (hn : ∀ c ∈ calls ++ [(n, now)], 0 ≤ c.1)
    (hsum : ((calls ++ [(n, now)]).map Prod.fst).sum = total) :
    (Update (runUpdates (NewProgressBar total t0) calls) n now).1.current = total ∧
    (Update (runUpdates (NewProgressBar total t0) calls) n now).2.completed = some 50 ∧
    (Update (runUpdates (NewProgressBar total t0) calls) n now).2.filled = some 50 ∧
    (Update (runUpdates (NewProgressBar total t0) calls) n now).2.empty = some 0 ∧
    (Update (runUpdates (NewProgressBar total t0) calls) n now).2.percentage = F64.fin 100 ∧
    (Update (runUpdates (NewProgressBar total t0) calls) n now).2.percentText = " 100.0% " := by
  have hc : (Update (runUpdates (NewProgressBar total t0) calls) n now).1.current = total := by
    rw [← runUpdates_snoc]
    have h := runUpdates_current (NewProgressBar total t0) (calls ++ [(n, now)]) (le_refl _) hn
      (by
        rw [hsum]
        simp only [NewProgressBar]
        omega)
    rw [h, hsum]
    simp [NewProgressBar]
  have htot : (runUpdates (NewProgressBar total t0) calls).total = total := by
    rw [runUpdates_total]
    rfl
  have hwid : (runUpdates (NewProgressBar total t0) calls).width = 50 := by
    rw [runUpdates_width]
    rfl
  have htq : (0 : ℚ) < (total : ℚ) := by exact_mod_cast ht0
  have htq2 : (total : ℚ) < 2 ^ 53 := by
    have : total < 2 ^ 53 := by omega
    exact_mod_cast this
  have habs : |total| < 2 ^ 53 := by
    rw [abs_lt]
    constructor <;> omega
  have habs25 : |25 * total| < 2 ^ 53 := by
    rw [abs_lt]
    constructor <;> omega
  have hcomp : (Update (runUpdates (NewProgressBar total t0) calls) n now).2.completed
      = some 50 := by
    rw [Update_completed, hc, htot, hwid, F64.ofInt_exact 50 (by norm_num),
      F64.ofInt_exact total habs]
    simp only [F64.mul]
    rw [F64.round_exact _ (25 * total) 1 (by push_cast; ring) habs25 (by norm_num) (by
      rw [abs_of_nonneg (by push_cast; linarith)]
      push_cast
      calc (50 : ℚ) * total < 50 * 2 ^ 53 := by linarith
        _ < 2 ^ 1000 := by norm_num)]
    simp only [F64.div]
    rw [if_neg htq.ne']
    have e : ((50 : ℤ) : ℚ) * (total : ℚ) / (total : ℚ) = ((50 : ℤ) : ℚ) := by
      field_simp
    rw [e, F64.round_eq_of_eq_int _ 50 rfl (by norm_num)]
    exact F64.toInt64_intCast 50 (by norm_num) (by norm_num)
  have hperc : (Update (runUpdates (NewProgressBar total t0) calls) n now).2.percentage
      = F64.fin 100 := by
    rw [Update_percentage, hc, htot, F64.ofInt_exact total habs]
    simp only [F64.mul]
    rw [F64.round_exact _ (25 * total) 2 (by push_cast; ring) habs25 (by norm_num) (by
      rw [abs_of_nonneg (by linarith)]
      calc (total : ℚ) * 100 < 2 ^ 53 * 100 := by linarith
        _ < 2 ^ 1000 := by norm_num)]
    simp only [F64.div]
    rw [if_neg htq.ne']
    have e : (total : ℚ) * 100 / (total : ℚ) = ((100 : ℤ) : ℚ) := by
      field_simp
    rw [e, F64.round_eq_of_eq_int _ 100 rfl (by norm_num)]
    norm_num
  refine ⟨hc, hcomp, ?_, ?_, hperc, ?_⟩
  · rw [Update_filled, hcomp]
    rfl
  · rw [Update_empty, hcomp, hwid]
    rfl
  · rw [Update_percentText, hperc, fmtFixed_hundred]
    decide

theorem C6_full_bar_at_completion_witness :
    (0 : ℤ) < 10485760 ∧ (100 : ℤ) * 10485760 < 2 ^ 55 ∧
    (∀ c ∈ List.replicate 9 ((1048576 : ℤ), (0 : ℤ)) ++ [(1048576, 0)], 0 ≤ c.1) ∧
    ((List.replicate 9 ((1048576 : ℤ), (0 : ℤ)) ++ [(1048576, 0)]).map Prod.fst).sum
      = 10485760 ∧
    ((Update (runUpdates (NewProgressBar 10485760 0)
        (List.replicate 9 ((1048576 : ℤ), (0 : ℤ)))) 1048576 0).1.current = 10485760 ∧
    (Update (runUpdates (NewProgressBar 10485760 0)
        (List.replicate 9 ((1048576 : ℤ), (0 : ℤ)))) 1048576 0).2.completed = some 50 ∧
    (Update (runUpdates (NewProgressBar 10485760 0)
        (List.replicate 9 ((1048576 : ℤ), (0 : ℤ)))) 1048576 0).2.filled = some 50 ∧
    (Update (runUpdates (NewProgressBar 10485760 0)
        (List.replicate 9 ((1048576 : ℤ), (0 : ℤ)))) 1048576 0).2.empty = some 0 ∧
    (Update (runUpdates (NewProgressBar 10485760 0)
        (List.replicate 9 ((1048576 : ℤ), (0 : ℤ)))) 1048576 0).2.percentage = F64.fin 100 ∧
    (Update (runUpdates (NewProgressBar 10485760 0)
        (List.replicate 9 ((1048576 : ℤ), (0 : ℤ)))) 1048576 0).2.percentText = " 100.0% ") :=
  ⟨by decide, by decide, by decide, by decide,
    C6_full_bar_at_completion 10485760 0 (List.replicate 9 (1048576, 0)) 1048576 0
      (by decide) (by decide) (by decide) (by decide)⟩

/-! ## formatSize -/

theorem formatSize_quotient (b : ℤ) (k : ℕ) (hb0 : 0 ≤ b) (hb : b < 2 ^ 53) (hk : k ≤ 30) :
    F64.div (F64.ofInt b) (F64.ofInt (2 ^ k)) = F64.fin ((b : ℚ) / 2 ^ k) := by
  have hbabs : |b| < 2 ^ 53 := by
    rw [abs_lt]
    constructor <;> omega
  have hpk : (2 : ℤ) ^ k ≤ 2 ^ 30 := pow_le_pow_right₀ (by norm_num) hk
  have hpk0 : (0 : ℤ) < 2 ^ k := by positivity
  have hkabs : |(2 : ℤ) ^ k| < 2 ^ 53 := by
    rw [abs_lt]
    constructor <;> omega
  have hbq0 : (0 : ℚ) ≤ (b : ℚ) := by exact_mod_cast hb0
  have hbq : (b : ℚ) < 2 ^ 53 := by exact_mod_cast hb
  rw [F64.ofInt_exact b hbabs, F64.ofInt_exact _ hkabs]
  simp only [F64.div]
  push_cast
  rw [if_neg (by positivity)]
  have hle : (b : ℚ) / 2 ^ k ≤ (b : ℚ) := div_le_self hbq0 (one_le_pow₀ (by norm_num))
  exact F64.round_exact _ b (-(k : ℤ)) (by
      rw [zpow_neg, zpow_natCast]
      rfl) hbabs (by omega) (by
      rw [abs_of_nonneg (by positivity)]
      calc (b : ℚ) / 2 ^ k ≤ (b : ℚ) := hle
        _ < 2 ^ 53 := hbq
        _ < 2 ^ 1000 := by norm_num)

/-- For a byte count below `2 ^ 53` the code formats the exact quotient. -/
theorem formatSize_eq_spec (b : ℤ) (hb0 : 0 ≤ b) (hb : b < 2 ^ 53) :
    formatSize b = formatSize_spec b := by
  have hK := formatSize_quotient b 10 hb0 hb (by norm_num)
  have hM := formatSize_quotient b 20 hb0 hb (by norm_num)
  have hG := formatSize_quotient b 30 hb0 hb (by norm_num)
  unfold formatSize formatSize_spec
  simp only [KB, MB, GB, ge_iff_le]
  norm_num at hK hM hG ⊢
  split_ifs <;> first
    | omega
    | rfl
    | (rw [hK]; rfl)
    | (rw [hM]; rfl)
    | (rw [hG]; rfl)

theorem formatSize_GB (b : ℤ) (h : 1024 ^ 3 ≤ b) :
    formatSize b = fmtFixed 2 (F64.div (F64.ofInt b) (F64.ofInt (1024 ^ 3))) ++ "GB" := by
  unfold formatSize
  rw [if_pos (by simp only [GB, MB, KB]; omega)]
  rfl

theorem formatSize_spec_KB (b : ℤ) (h1 : 1024 ≤ b) (h2 : b < 1024 ^ 2) :
    formatSize_spec b = fixedText 2 ((b : ℚ) / 1024) ++ "KB" := by
  unfold formatSize_spec
  rw [if_neg (by omega), if_pos h2]

theorem formatSize_spec_MB (b : ℤ) (h1 : 1024 ^ 2 ≤ b) (h2 : b < 1024 ^ 3) :
    formatSize_spec b = fixedText 2 ((b : ℚ) / 1024 ^ 2) ++ "MB" := by
  unfold formatSize_spec
  rw [if_neg (by omega), if_neg (by omega), if_pos h2]

theorem formatSize_spec_GB (b : ℤ) (h1 : 1024 ^ 3 ≤ b) :
    formatSize_spec b = fixedText 2 ((b : ℚ) / 1024 ^ 3) ++ "GB" := by
  unfold formatSize_spec
  rw [if_neg (by omega), if_neg (by omega), if_neg (by omega)]

theorem fixedText_one : fixedText 2 1 = "1.00" := by
  rw [fixedText_eq 2 1 100 (by norm_num) (by norm_num) (by
    have : (1 : ℚ) * 10 ^ 2 = ((100 : ℤ) : ℚ) := by norm_num
    rw [this, rne_intCast]
    rfl)]
  decide

/-- C5 (as stated, refuted): for `b = 9007199346009047 ≥ 1024 ^ 3` the code
returns `"8388608.09GB"`, while `b / 1024 ^ 3 = 8388608.08499999996…` with two
decimals is `8388608.08`. -/
theorem C5_formatSize_inexact :
    formatSize 9007199346009047 = "8388608.09GB" ∧
    formatSize_spec 9007199346009047 = "8388608.08GB" ∧
    formatSize 9007199346009047 ≠ formatSize_spec 9007199346009047 := by
  have hconv : F64.roundQ ((9007199346009047 : ℤ) : ℚ) = 9007199346009048 := by
    rw [F64.roundQ_eq_of _ 2 53 4503599673004524 (by norm_num) (by norm_num) (by norm_num)
      (by norm_num) (by
        have : (((9007199346009047 : ℤ) : ℚ)) / 2 = ((4503599673004523 : ℤ) : ℚ) + 1 / 2 := by
          norm_num
        rw [this, rne_half_odd _ (by norm_num)]
        norm_num)]
    norm_num
  have hcode : formatSize 9007199346009047 = "8388608.09GB" := by
    rw [formatSize_GB _ (by norm_num)]
    unfold F64.ofInt
    rw [F64.round_eq_fin_of_nonneg _ (by norm_num) (by norm_num), hconv,
      F64.round_eq_of_eq_int _ (1024 ^ 3) (by norm_num) (by norm_num)]
    simp only [F64.div]
    rw [if_neg (by norm_num),
      F64.round_exact _ 4503599673004524 (-29) (by norm_num) (by norm_num) (by norm_num)
        (by rw [abs_of_nonneg (by norm_num)]; norm_num)]
    simp only [fmtFixed]
    rw [fixedText_eq 2 _ 838860809 (by norm_num) (by norm_num) (by
      apply rne_eq_of_abs_lt
      rw [abs_lt]
      constructor <;> norm_num)]
    decide
  have hspec : formatSize_spec 9007199346009047 = "8388608.08GB" := by
    rw [formatSize_spec_GB _ (by norm_num)]
    rw [fixedText_eq 2 _ 838860808 (by norm_num) (by norm_num) (by
      apply rne_eq_of_abs_lt
      rw [abs_lt]
      constructor <;> norm_num)]
    decide
  refine ⟨hcode, hspec, ?_⟩
  rw [hcode, hspec]
  decide

/-- C5 (amended): for every byte count `0 ≤ b < 2 ^ 53`, `formatSize b` is the
decimal integer `b` followed by `B` below 1024, and otherwise the exact
quotient `b / 1024 ^ k` with two decimals followed by `KB`, `MB` or `GB`, for
the largest `1024 ^ k ≤ b`; in particular `0`, `1023`, `1024`, `1048576` and
`1073741824` give `0B`, `1023B`, `1.00KB`, `1.00MB` and `1.00GB`. -/
theorem C5_formatSize (b : ℤ) (hb0 : 0 ≤ b) (hb : b < 2 ^ 53) :
    formatSize b = formatSize_spec b ∧
    formatSize 0 = "0B" ∧ formatSize 1023 = "1023B" ∧ formatSize 1024 = "1.00KB" ∧
    formatSize 1048576 = "1.00MB" ∧ formatSize 1073741824 = "1.00GB" := by
  refine ⟨formatSize_eq_spec b hb0 hb, ?_, ?_, ?_, ?_, ?_⟩
  · rw [formatSize_eq_spec 0 (by norm_num) (by norm_num)]
    decide
  · rw [formatSize_eq_spec 1023 (by norm_num) (by norm_num)]
    decide
  · rw [formatSize_eq_spec 1024 (by norm_num) (by norm_num),
      formatSize_spec_KB 1024 (by norm_num) (by norm_num)]
    have : (((1024 : ℤ) : ℚ)) / 1024 = 1 := by norm_num
    rw [this, fixedText_one]
    decide
  · rw [formatSize_eq_spec 1048576 (by norm_num) (by norm_num),
      formatSize_spec_MB 1048576 (by norm_num) (by norm_num)]
    have : (((1048576 : ℤ) : ℚ)) / 1024 ^ 2 = 1 := by norm_num
    rw [this, fixedText_one]
    decide
  · rw [formatSize_eq_spec 1073741824 (by norm_num) (by norm_num),
      formatSize_spec_GB 1073741824 (by norm_num)]
    have : (((1073741824 : ℤ) : ℚ)) / 1024 ^ 3 = 1 := by norm_num
    rw [this, fixedText_one]
    decide

theorem C5_formatSize_witness :
    (0 : ℤ) ≤ 1536 ∧ (1536 : ℤ) < 2 ^ 53 ∧
    (formatSize 1536 = formatSize_spec 1536 ∧
    formatSize 0 = "0B" ∧ formatSize 1023 = "1023B" ∧ formatSize 1024 = "1.00KB" ∧
    formatSize 1048576 = "1.00MB" ∧ formatSize 1073741824 = "1.00GB") :=
  ⟨by decide, by decide, C5_formatSize 1536 (by decide) (by decide)⟩

/-! ## The transfer loop -/

/-- The loop on reads that all succeed (no error, the write succeeds),
followed by a read reporting the end of the stream: it stops cleanly, the file
holds the bytes of the successful reads and `Update` was called once for each
of them.  Bytes returned together with the end-of-stream error are not
written. -/
theorem handleYouTube_loop_until_eof (pb : ProgressBar) (file : List ℕ) (steps : List Step)
    (last : Step) (rest : List Step)
    (hs : ∀ s ∈ steps, s.err = none ∧ s.writeOk = true) (hl : last.err = some ReadErr.eof) :
    handleYouTube_loop pb file (steps ++ last :: rest) =
      (Outcome.completed,
        runUpdates pb (steps.map (fun s => ((s.data.length : ℤ), s.now))),
        file ++ (steps.map Step.data).flatten) := by
  induction steps generalizing pb file with
  | nil => simp [handleYouTube_loop, hl, runUpdates]
  | cons s ss ih =>
    obtain ⟨he, hw⟩ := hs s (List.mem_cons_self _ _)
    have hss : ∀ t ∈ ss, t.err = none ∧ t.writeOk = true :=
      fun t ht => hs t (List.mem_cons_of_mem _ ht)
    have hstep : handleYouTube_loop pb file ((s :: ss) ++ last :: rest)
        = handleYouTube_loop (Update pb (s.data.length : ℤ) s.now).1 (file ++ s.data)
            (ss ++ last :: rest) := by
      simp [handleYouTube_loop, he, hw]
    rw [hstep, ih _ _ hss]
    simp [runUpdates]

theorem sum_read_lengths (steps : List Step) :
    ((steps.map (fun s => ((s.data.length : ℤ), s.now))).map Prod.fst).sum
      = (((steps.map Step.data).flatten.length : ℕ) : ℤ) := by
  induction steps with
  | nil => simp
  | cons s ss ih =>
    simp only [List.map_cons, List.sum_cons, List.flatten_cons, List.length_append,
      Nat.cast_add]
    rw [ih]

theorem runUpdates_current_length (pb : ProgressBar) (steps : List Step)
    (h0 : 0 ≤ pb.current)
    (hlen : pb.current + (((steps.map Step.data).flatten.length : ℕ) : ℤ) < 2 ^ 63) :
    (runUpdates pb (steps.map (fun s => ((s.data.length : ℤ), s.now)))).current
      = pb.current + (((steps.map Step.data).flatten.length : ℕ) : ℤ) := by
  have hsum := sum_read_lengths steps
  rw [runUpdates_current pb _ h0 (by
    intro c hc
    obtain ⟨s, _, rfl⟩ := List.mem_map.mp hc
    exact Int.natCast_nonneg _) (by rw [hsum]; exact hlen), hsum]

/-- C9 (as stated, refuted): the stream returns the bytes `1 2 3` and then the
bytes `4 5` together with the end-of-stream error, every write succeeds; the
loop ends normally with only `1 2 3` written and `current = 3`, although the
stream returned the five bytes `1 2 3 4 5`. -/
theorem C9_loop_drops_bytes_read_with_eof :
    (handleYouTube_loop (NewProgressBar 5 0) []
      [⟨[1, 2, 3], none, true, 0⟩, ⟨[4, 5], some ReadErr.eof, true, 0⟩]).1 = Outcome.completed ∧
    (handleYouTube_loop (NewProgressBar 5 0) []
      [⟨[1, 2, 3], none, true, 0⟩, ⟨[4, 5], some ReadErr.eof, true, 0⟩]).2.2 = [1, 2, 3] ∧
    (handleYouTube_loop (NewProgressBar 5 0) []
      [⟨[1, 2, 3], none, true, 0⟩, ⟨[4, 5], some ReadErr.eof, true, 0⟩]).2.1.current = 3 ∧
    (([⟨[1, 2, 3], none, true, 0⟩, ⟨[4, 5], some ReadErr.eof, true, 0⟩] : List Step).map
      Step.data).flatten = [1, 2, 3, 4, 5] ∧
    (handleYouTube_loop (NewProgressBar 5 0) []
      [⟨[1, 2, 3], none, true, 0⟩, ⟨[4, 5], some ReadErr.eof, true, 0⟩]).2.2 ≠
    (([⟨[1, 2, 3], none, true, 0⟩, ⟨[4, 5], some ReadErr.eof, true, 0⟩] : List Step).map
      Step.data).flatten := by
  decide

/-- C9 (amended): for reads that all succeed (nil error, successful write)
followed by one read reporting the end of the stream, the loop started on a
new tracker and an empty file stops cleanly; the file holds exactly the
concatenation of the bytes of the successful reads, `Update` has been called
once for each of them in order, and the final `current` is the number of
bytes written.  The bytes the stream returned in all are the file's bytes
followed by those of the end-of-stream read, which are not written: the file
holds every byte returned exactly when that last read is empty. -/
theorem C9_loop_writes_successful_reads (total t0 : ℤ) (steps : List Step) (last : Step)
    (hs : ∀ s ∈ steps, s.err = none ∧ s.writeOk = true) (hl : last.err = some ReadErr.eof)
    (hlen : (((steps.map Step.data).flatten.length : ℕ) : ℤ) < 2 ^ 63) :
    (handleYouTube_loop (NewProgressBar total t0) [] (steps ++ [last])).1
      = Outcome.completed ∧
    (handleYouTube_loop (NewProgressBar total t0) [] (steps ++ [last])).2.2
      = (steps.map Step.data).flatten ∧
    (handleYouTube_loop (NewProgressBar total t0) [] (steps ++ [last])).2.1
      = runUpdates (NewProgressBar total t0)
          (steps.map (fun s => ((s.data.length : ℤ), s.now))) ∧
    (handleYouTube_loop (NewProgressBar total t0) [] (steps ++ [last])).2.1.current
      = (((handleYouTube_loop (NewProgressBar total t0) [] (steps ++ [last])).2.2.length : ℕ) : ℤ) ∧
    ((steps ++ [last]).map Step.data).flatten
      = (handleYouTube_loop (NewProgressBar total t0) [] (steps ++ [last])).2.2 ++ last.data ∧
    ((handleYouTube_loop (NewProgressBar total t0) [] (steps ++ [last])).2.2
      = ((steps ++ [last]).map Step.data).flatten ↔ last.data = []) := by
  have h := handleYouTube_loop_until_eof (NewProgressBar total t0) [] steps last [] hs hl
  have hcur := runUpdates_current_length (NewProgressBar total t0) steps (le_refl _)
    (by simpa [NewProgressBar] using hlen)
  rw [h]
  refine ⟨rfl, by simp, rfl, ?_, by simp, ?_⟩
  · simp only [List.nil_append]
    rw [hcur]
    simp [NewProgressBar]
  · simp

theorem C9_loop_writes_successful_reads_witness :
    (∀ s ∈ ([⟨[1, 2, 3], none, true, 7⟩, ⟨[4, 5], none, true, 9⟩] : List Step),
      s.err = none ∧ s.writeOk = true) ∧
    (⟨[], some ReadErr.eof, true, 11⟩ : Step).err = some ReadErr.eof ∧
    ((((([⟨[1, 2, 3], none, true, 7⟩, ⟨[4, 5], none, true, 9⟩] : List Step).map
      Step.data).flatten.length : ℕ) : ℤ) < 2 ^ 63) ∧
    ((handleYouTube_loop (NewProgressBar 5 0) []
        ([⟨[1, 2, 3], none, true, 7⟩, ⟨[4, 5], none, true, 9⟩]
          ++ [⟨[], some ReadErr.eof, true, 11⟩])).1 = Outcome.completed ∧
    (handleYouTube_loop (NewProgressBar 5 0) []
        ([⟨[1, 2, 3], none, true, 7⟩, ⟨[4, 5], none, true, 9⟩]
          ++ [⟨[], some ReadErr.eof, true, 11⟩])).2.2
      = (([⟨[1, 2, 3], none, true, 7⟩, ⟨[4, 5], none, true, 9⟩] : List Step).map
          Step.data).flatten ∧
    (handleYouTube_loop (NewProgressBar 5 0) []
        ([⟨[1, 2, 3], none, true, 7⟩, ⟨[4, 5], none, true, 9⟩]
          ++ [⟨[], some ReadErr.eof, true, 11⟩])).2.1
      = runUpdates (NewProgressBar 5 0)
          (([⟨[1, 2, 3], none, true, 7⟩, ⟨[4, 5], none, true, 9⟩] : List Step).map
            (fun s => ((s.data.length : ℤ), s.now))) ∧
    (handleYouTube_loop (NewProgressBar 5 0) []
        ([⟨[1, 2, 3], none, true, 7⟩, ⟨[4, 5], none, true, 9⟩]
          ++ [⟨[], some ReadErr.eof, true, 11⟩])).2.1.current
      = (((handleYouTube_loop (NewProgressBar 5 0) []
        ([⟨[1, 2, 3], none, true, 7⟩, ⟨[4, 5], none, true, 9⟩]
          ++ [⟨[], some ReadErr.eof, true, 11⟩])).2.2.length : ℕ) : ℤ) ∧
    ((([⟨[1, 2, 3], none, true, 7⟩, ⟨[4, 5], none, true, 9⟩] : List Step)
          ++ ([⟨[], some ReadErr.eof, true, 11⟩] : List Step)).map Step.data).flatten
      = (handleYouTube_loop (NewProgressBar 5 0) []
        ([⟨[1, 2, 3], none, true, 7⟩, ⟨[4, 5], none, true, 9⟩]
          ++ [⟨[], some ReadErr.eof, true, 11⟩])).2.2
        ++ (⟨[], some ReadErr.eof, true, 11⟩ : Step).data ∧
    ((handleYouTube_loop (NewProgressBar 5 0) []
        ([⟨[1, 2, 3], none, true, 7⟩, ⟨[4, 5], none, true, 9⟩]
          ++ [⟨[], some ReadErr.eof, true, 11⟩])).2.2
      = ((([⟨[1, 2, 3], none, true, 7⟩, ⟨[4, 5], none, true, 9⟩] : List Step)
          ++ ([⟨[], some ReadErr.eof, true, 11⟩] : List Step)).map Step.data).flatten ↔
      (⟨[], some ReadErr.eof, true, 11⟩ : Step).data = [])) :=
  ⟨by decide, by decide, by decide,
    C9_loop_writes_successful_reads 5 0
      [⟨[1, 2, 3], none, true, 7⟩, ⟨[4, 5], none, true, 9⟩] ⟨[], some ReadErr.eof, true, 11⟩
      (by decide) (by decide) (by decide)⟩


/-! ## sanitizeFilename -/

theorem mem_replaceAll_nil (s : List Char) (old c : Char) :
    c ∈ replaceAll s old [] ↔ c ∈ s ∧ c ≠ old := by
  unfold replaceAll
  rw [List.mem_flatMap]
  constructor
  · rintro ⟨a, ha, hc⟩
    by_cases h : a = old
    · simp [h] at hc
    · simp only [h, if_false, List.mem_singleton] at hc
      subst hc
      exact ⟨ha, h⟩
  · rintro ⟨hc, hne⟩
    exact ⟨c, hc, by simp [hne]⟩

theorem mem_replaceAll_singleton (s : List Char) (old new c : Char)
    (h : c ∈ replaceAll s old [new]) : (c ∈ s ∧ c ≠ old) ∨ c = new := by
  unfold replaceAll at h
  rw [List.mem_flatMap] at h
  obtain ⟨a, ha, hc⟩ := h
  by_cases h' : a = old
  · simp only [h', if_true, List.mem_singleton] at hc
    exact Or.inr hc
  · simp only [h', if_false, List.mem_singleton] at hc
    subst hc
    exact Or.inl ⟨ha, h'⟩

theorem mem_of_mem_trimSpace (s : List Char) (c : Char) (h : c ∈ trimSpace s) : c ∈ s := by
  unfold trimSpace at h
  rw [List.mem_reverse] at h
  have h1 := (List.dropWhile_sublist isSpace).subset h
  rw [List.mem_reverse] at h1
  exact (List.dropWhile_sublist isSpace).subset h1

theorem mem_foldl_strip (cs s : List Char) (c : Char)
    (h : c ∈ cs.foldl (fun acc char => replaceAll acc char []) s) : c ∈ s ∧ c ∉ cs := by
  induction cs generalizing s with
  | nil => exact ⟨h, by simp⟩
  | cons d ds ih =>
    simp only [List.foldl_cons] at h
    obtain ⟨h1, h2⟩ := ih _ h
    obtain ⟨h3, h4⟩ := (mem_replaceAll_nil s d c).mp h1
    exact ⟨h3, by simp [h4, h2]⟩

theorem replaceAll_nil_eq_filter (s : List Char) (old : Char) :
    replaceAll s old [] = s.filter (fun c => c != old) := by
  induction s with
  | nil => rfl
  | cons c cs ih =>
    have hc : replaceAll (c :: cs) old [] = (if c = old then [] else [c]) ++ replaceAll cs old [] := by
      simp [replaceAll]
    rw [hc, ih]
    by_cases h : c = old
    · simp [h]
    · simp [h]

theorem replaceAll_singleton_eq_map (s : List Char) (old new : Char) :
    replaceAll s old [new] = s.map (fun c => if c = old then new else c) := by
  induction s with
  | nil => rfl
  | cons c cs ih =>
    have hc : replaceAll (c :: cs) old [new]
        = (if c = old then [new] else [c]) ++ replaceAll cs old [new] := by
      simp [replaceAll]
    rw [hc, ih]
    by_cases h : c = old
    · simp [h]
    · simp [h]

theorem foldl_strip_eq_filter (cs s : List Char) :
    cs.foldl (fun acc char => replaceAll acc char []) s
      = s.filter (fun c => !(cs.contains c)) := by
  induction cs generalizing s with
  | nil => simp
  | cons d ds ih =>
    rw [List.foldl_cons, ih, replaceAll_nil_eq_filter, List.filter_filter]
    congr 1
    funext c
    by_cases h : c = d
    · simp [h]
    · simp [h]

/-- C7: `sanitizeFilename s` is the input with the characters
`< > : " / \ | ? *` stripped, then trimmed, then with every remaining space
replaced by an underscore; so the result contains none of those characters
and no space character. -/
theorem C7_sanitizeFilename_clean (s : String) :
    (sanitizeFilename s).data = sanitize_spec s.data ∧
    (sanitizeFilename s).data.length
      = (trimSpace (s.data.filter (fun c => !(invalidChars.contains c)))).length ∧
    ∀ c ∈ (sanitizeFilename s).data, c ∉ invalidChars ∧ c ≠ ' ' := by
  have heq : (sanitizeFilename s).data = sanitize_spec s.data := by
    unfold sanitizeFilename sanitize_spec
    simp only
    rw [foldl_strip_eq_filter, replaceAll_singleton_eq_map]
  refine ⟨heq, by rw [heq]; simp [sanitize_spec], ?_⟩
  intro c hc
  unfold sanitizeFilename at hc
  simp only at hc
  rcases mem_replaceAll_singleton _ _ _ _ hc with ⟨h1, h2⟩ | h3
  · exact ⟨(mem_foldl_strip _ _ _ (mem_of_mem_trimSpace _ _ h1)).2, h2⟩
  · subst h3
    exact ⟨by decide, by decide⟩

/-- C8 (as stated, refuted): `sanitizeFilename "My/Video:Title?"` is not
`"My_Video_Title_"`. -/
theorem C8_sanitize_example_refuted :
    sanitizeFilename "My/Video:Title?" ≠ "My_Video_Title_" := by decide

/-- C8 (amended): `sanitizeFilename "My/Video:Title?"` returns `"MyVideoTitle"`:
the invalid characters are removed, not replaced. -/
theorem C8_sanitize_example : sanitizeFilename "My/Video:Title?" = "MyVideoTitle" := by decide

/-! ## The file extension -/

theorem split_ne_nil (sep : Char) (s : List Char) : split sep s ≠ [] := by
  cases s with
  | nil => simp [split]
  | cons c cs =>
    unfold split
    split
    · simp
    · split <;> simp

theorem split_cons (sep c : Char) (cs : List Char) :
    split sep (c :: cs) =
      match split sep cs with
      | [] => [[]]
      | w :: ws => if c = sep then [] :: w :: ws else (c :: w) :: ws := rfl

theorem split_eq (sep : Char) (s : List Char) :
    split sep s = s.takeWhile (fun c => c != sep) ::
      (if sep ∈ s then split sep (afterFirst sep s) else []) := by
  induction s with
  | nil => simp [split]
  | cons c cs ih =>
    rw [split_cons]
    by_cases h : c = sep
    · subst h
      rw [ih]
      simp only [if_true, List.mem_cons, true_or]
      rw [← ih]
      simp [afterFirst, List.takeWhile, List.dropWhile]
    · have h' : (c != sep) = true := by simpa using h
      have hm : (sep ∈ c :: cs) ↔ sep ∈ cs := by
        simp [List.mem_cons, Ne.symm h]
      have ha : afterFirst sep (c :: cs) = afterFirst sep cs := by
        simp [afterFirst, List.dropWhile, h']
      rw [ih]
      simp only [h, if_false, List.takeWhile, h', ha, hm]

theorem split_get_one (sep : Char) (s : List Char) (h : sep ∈ s) :
    (split sep s)[1]? = some ((afterFirst sep s).takeWhile (fun c => c != sep)) := by
  rw [split_eq sep s, if_pos h, split_eq sep (afterFirst sep s)]
  simp

theorem index_take (sep : Char) (s : List Char) :
    (match index sep s with
      | some i => s.take i
      | none => s) = s.takeWhile (fun c => c != sep) := by
  induction s with
  | nil => simp [index]
  | cons c cs ih =>
    by_cases h : c = sep
    · subst h
      simp [index, List.takeWhile]
    · have h' : (c != sep) = true := by simpa using h
      simp only [index, h, if_false, List.takeWhile, h']
      cases hi : index sep cs with
      | none =>
        rw [hi] at ih
        simp only [Option.map_none'] 
        simp only at ih
        rw [← ih]
      | some i =>
        rw [hi] at ih
        simp only [Option.map_some', List.take_succ_cons]
        simp only at ih
        rw [ih]

theorem takeWhile_takeWhile (p q : Char → Bool) (s : List Char) :
    (s.takeWhile q).takeWhile p = s.takeWhile (fun c => q c && p c) := by
  induction s with
  | nil => rfl
  | cons c cs ih =>
    by_cases hq : q c = true
    · by_cases hp : p c = true
      · simp [List.takeWhile, hq, hp, ih]
      · simp [List.takeWhile, hq, hp]
    · simp [List.takeWhile, hq]

/-- C10 (as stated, refuted): for `"a/b/c"`, which contains a `/`, the code
derives `"b"` while the substring after the first `/` (there is no `;`) is
`"b/c"`. -/
theorem C10_ext_refuted :
    '/' ∈ "a/b/c".data ∧ handleYouTube_ext "a/b/c" = some "b" ∧ ext_spec "a/b/c" = "b/c" ∧
      handleYouTube_ext "a/b/c" ≠ some (ext_spec "a/b/c") := by decide

/-- C10 (amended): for a content type containing a `/`, the index expression
does not panic and the extension is the part of the string after the first
`/` up to, and excluding, the next `/` or `;` (or the end of the string); for
`video/mp4; codecs="avc1"` it is `mp4`. -/
theorem C10_ext (m : String) (h : '/' ∈ m.data) :
    handleYouTube_ext m =
        some (String.mk
          ((afterFirst '/' m.data).takeWhile (fun c => c != '/' && c != ';'))) ∧
      handleYouTube_ext "video/mp4; codecs=\"avc1\"" = some "mp4" := by
  refine ⟨?_, by decide⟩
  unfold handleYouTube_ext
  rw [split_get_one '/' m.data h]
  simp only
  have := index_take ';' ((afterFirst '/' m.data).takeWhile (fun c => c != '/'))
  rw [takeWhile_takeWhile] at this
  rw [← this]
  cases index ';' (List.takeWhile (fun c => c != '/') (afterFirst '/' m.data)) <;> rfl

theorem C10_ext_witness :
    '/' ∈ "audio/webm; codecs=\"opus\"".data ∧
      (handleYouTube_ext "audio/webm; codecs=\"opus\"" =
        some (String.mk ((afterFirst '/' "audio/webm; codecs=\"opus\"".data).takeWhile
          (fun c => c != '/' && c != ';'))) ∧
      handleYouTube_ext "video/mp4; codecs=\"avc1\"" = some "mp4") :=
  ⟨by decide, C10_ext "audio/webm; codecs=\"opus\"" (by decide)⟩

end Azuki
